import Mathlib

/-!
Shallow embedding of the go-structdiff library (package structdiff).

Go interface values (the dynamic type any) are modelled by the inductive
type Value below.  Go maps of type map with string keys and any values are
modelled by association lists together with an Option wrapper whose none
constructor stands for a nil Go map.  Struct values carry their type name
and the list of fields; each field records the Go identifier, the json tag,
whether the field is exported, and the field value.
-/

set_option maxHeartbeats 1600000

namespace StructDiff

/-- Comparable primitive leaf values (strings, integers, booleans). -/
inductive Prim where
  | pstr (s : String)
  | pint (n : Int)
  | pbool (b : Bool)
deriving DecidableEq

/-- A Go value of dynamic type any.
vnil is the nil interface value; uncomp is an uncomparable leaf whose
direct comparison with == panics (for example a func value or a slice of a
type other than a list of any); vtime models a time.Time instant together
with a representation component (wall clock versus monotonic reading) so
that == on times compares both while the Equal method compares instants
only; ptr none is a typed nil pointer; slice none and vmap none are nil
slices and nil maps.  Fields of a struct are tuples of the declared
identifier, the json tag, the exported flag and the field value. -/
inductive Value where
  | vnil
  | prim (p : Prim)
  | uncomp (tag : Nat)
  | vtime (instant : Int) (repr : Nat)
  | ptr (deref : Option Value)
  | slice (elems : Option (List Value))
  | vmap (entries : Option (List (String × Value)))
  | strct (tyName : String) (fields : List (String × String × Bool × Value))

/-- A struct field: Go identifier, json tag, exported flag, value. -/
abbrev Fld := String × String × Bool × Value

/-- Entries of a non-nil Go map with string keys. -/
abbrev Smap := List (String × Value)

/-- A Go map value; none models the nil map. -/
abbrev GoMap := Option Smap

/-- Errors are abstract; the diff engine only propagates them. -/
abbrev Err := String

def fldName (f : Fld) : String := f.1

def fldTag (f : Fld) : String := f.2.1

def fldExp (f : Fld) : Bool := f.2.2.1

def fldVal (f : Fld) : Value := f.2.2.2

mutual

/-- Size measure used for termination of the recursive engine. -/
def sizeV : Value → Nat
  | .vnil => 1
  | .prim _ => 1
  | .uncomp _ => 1
  | .vtime _ _ => 1
  | .ptr none => 2
  | .ptr (some v) => 2 + sizeV v
  | .slice none => 1
  | .slice (some xs) => 1 + sizeL xs
  | .vmap none => 1
  | .vmap (some l) => 1 + sizeM l
  | .strct _ fs => 1 + sizeF fs

def sizeL : List Value → Nat
  | [] => 0
  | x :: xs => 1 + sizeV x + sizeL xs

def sizeM : List (String × Value) → Nat
  | [] => 0
  | p :: l => 1 + sizeV p.2 + sizeM l

def sizeF : List (String × String × Bool × Value) → Nat
  | [] => 0
  | f :: fs => 1 + sizeV f.2.2.2 + sizeF fs

end

/-- Size of a possibly invalid reflect value. -/
def sizeO : Option Value → Nat
  | none => 1
  | some v => sizeV v

/-- Size of a Go map value. -/
def sizeG : GoMap → Nat
  | none => 1
  | some l => 1 + sizeM l

/-- Association list lookup, first match (Go map read). -/
def lookupS : Smap → String → Option Value
  | [], _ => none
  | (k, v) :: l, key => if k = key then some v else lookupS l key

/-- Go map assignment: overwrite the existing entry or append a new one. -/
def insertS (key : String) (val : Value) : Smap → Smap
  | [] => [(key, val)]
  | (k, v) :: l => if k = key then (k, val) :: l else (k, v) :: insertS key val l

/-- Go map delete. -/
def removeS (key : String) (l : Smap) : Smap :=
  l.filter (fun p => decide (p.1 ≠ key))

def keysS (l : Smap) : List String := l.map Prod.fst

/-- Lookup through a possibly nil Go map. -/
def lookupG (m : GoMap) (k : String) : Option Value := lookupS (m.getD []) k

/-- len of a possibly nil Go map. -/
def lenG : GoMap → Nat
  | none => 0
  | some l => l.length

/-- Models the Go nil-interface test v == nil. -/
def isNilV : Value → Bool
  | .vnil => true
  | _ => false

/-- isMap from diffmaps.go: type assertion to a string-keyed map of any. -/
def isMap : Value → Bool
  | .vmap _ => true
  | _ => false

/-- isSlice from diffmaps.go: type assertion to a list of any. -/
def isSlice : Value → Bool
  | .slice _ => true
  | _ => false

/-- isStruct from diffmaps.go: reflect kind is Struct (true for time.Time). -/
def isStruct : Value → Bool
  | .strct _ _ => true
  | .vtime _ _ => true
  | _ => false

/-- Kind test for a nil pointer reflect value. -/
def isPtrNil : Value → Bool
  | .ptr none => true
  | _ => false

/-- Kind test for time.Time values. -/
def isTimeV : Value → Bool
  | .vtime _ _ => true
  | _ => false

/-- Struct kind test on reflect values (struct or time.Time). -/
def isStructKind : Value → Bool
  | .strct _ _ => true
  | .vtime _ _ => true
  | _ => false

/-- The entries of a map value (type assertion, guarded by isMap). -/
def mapEntriesOf : Value → GoMap
  | .vmap m => m
  | _ => none

/-- The elements of a slice value; a nil slice has no elements. -/
def sliceElemsOf : Value → List Value
  | .slice (some xs) => xs
  | _ => []

/-- Type skeleton of a struct field list (names, tags, exported flags). -/
def skelF (fs : List Fld) : List (String × String × Bool) :=
  fs.map (fun f => (f.1, f.2.1, f.2.2.1))

/-- Same prim dynamic type. -/
def primTagEq : Prim → Prim → Bool
  | .pstr _, .pstr _ => true
  | .pint _, .pint _ => true
  | .pbool _, .pbool _ => true
  | _, _ => false

mutual

/-- Models the Go interface comparison a == b.  The result none stands for
a run-time panic on values of an uncomparable dynamic type.  Two non-nil
pointers are treated as distinct allocations and compare unequal; this is
a modelling assumption the source cannot express. -/
def goEq : Value → Value → Option Bool
  | .vnil, .vnil => some true
  | .vnil, _ => some false
  | _, .vnil => some false
  | .prim p, .prim q => some (decide (p = q))
  | .vtime i r, .vtime j s => some (decide (i = j) && decide (r = s))
  | .ptr none, .ptr none => some true
  | .ptr _, .ptr _ => some false
  | .slice _, .slice _ => none
  | .vmap _, .vmap _ => none
  | .uncomp i, .uncomp j => if i = j then none else some false
  | .strct n fs, .strct m gs =>
      if n = m && decide (skelF fs = skelF gs) then goEqF fs gs else some false
  | _, _ => some false

/-- Field-by-field interface comparison for same-type structs; any field of
an uncomparable type makes the whole comparison panic. -/
def goEqF : List Fld → List Fld → Option Bool
  | [], [] => some true
  | f :: fs, g :: gs =>
      match goEq f.2.2.2 g.2.2.2, goEqF fs gs with
      | none, _ => none
      | _, none => none
      | some a, some b => some (a && b)
  | _, _ => some false

end

/-- safeEqual from diff.go: compare with ==, recovering a panic to false. -/
def safeEqual (a b : Value) : Bool := (goEq a b).getD false

/-- Models the reflect test a.Type() != b.Type() on directly typed values. -/
def dynTypeEq : Value → Value → Bool
  | .vnil, .vnil => true
  | .prim p, .prim q => primTagEq p q
  | .uncomp i, .uncomp j => decide (i = j)
  | .vtime _ _, .vtime _ _ => true
  | .ptr _, .ptr _ => true
  | .slice _, .slice _ => true
  | .vmap _, .vmap _ => true
  | .strct n fs, .strct m gs => n = m && decide (skelF fs = skelF gs)
  | _, _ => false

/-- The first component of strings.Split(tag, comma): the prefix of the
tag before the first comma. -/
def tagHead (tag : String) : String :=
  String.mk (tag.toList.takeWhile (fun c => decide (c ≠ ',')))

/-- parseName from the field-catalog source: take the part of the json tag
before the first comma, falling back to the declared identifier. -/
def parseName (tag fallb : String) : String :=
  if tag = "" then fallb
  else
    let name := tagHead tag
    if name = "" then fallb else name

/-- The effective external name of a field. -/
def effName (f : Fld) : String := parseName (fldTag f) (fldName f)

/-- Whether a field takes part in the external view. -/
def included (f : Fld) : Bool := fldExp f && (fldTag f != "-")

mutual

/-- toMapValue from the normalizer source: recursively convert a reflect
value to its external representation; vnil stands for the nil result that
makes the surrounding struct loop omit the slot. -/
def toMapValue : Value → Value
  | .vnil => .vnil
  | .prim p => .prim p
  | .uncomp t => .uncomp t
  | .vtime i r => .vtime i r
  | .ptr none => .vnil
  | .ptr (some v) => toMapValue v
  | .slice none => .vnil
  | .slice (some xs) => .slice (some (toMapList xs))
  | .vmap none => .vnil
  | .vmap (some l) => .vmap (some (toMapEntries l))
  | .strct _ fs => .vmap (some (toMapFields fs []))

def toMapList : List Value → List Value
  | [] => []
  | x :: xs => toMapValue x :: toMapList xs

def toMapEntries : List (String × Value) → List (String × Value)
  | [] => []
  | p :: l => (p.1, toMapValue p.2) :: toMapEntries l

/-- The struct-field loop of toMapValue: skip unexported and excluded
fields, omit nil pointers, convert, and keep non-nil results. -/
def toMapFields : List (String × String × Bool × Value) → Smap → Smap
  | [], acc => acc
  | f :: fs, acc =>
    if f.2.2.1 && (f.2.1 != "-") then
      if isPtrNil f.2.2.2 then toMapFields fs acc
      else
        let val := toMapValue f.2.2.2
        if isNilV val then toMapFields fs acc
        else toMapFields fs (insertS (parseName f.2.1 f.1) val acc)
    else toMapFields fs acc

end

/-- ToMap from the normalizer source. -/
def ToMap (v : Value) : GoMap :=
  match toMapValue v with
  | .vmap m => m
  | _ => none

/-- reflect.ValueOf: the nil interface becomes the invalid reflect value. -/
def toR : Value → Option Value
  | .vnil => none
  | v => some v

/-- getFieldByName from diff.go: scan the struct fields for the first
exported, non-excluded field with the given effective name. -/
def getFieldByName : List Fld → String → Option Value
  | [], _ => none
  | f :: fs, name =>
    if f.2.2.1 && (f.2.1 != "-") then
      if parseName f.2.1 f.1 = name then some f.2.2.2
      else getFieldByName fs name
    else getFieldByName fs name

theorem sizeV_pos (v : Value) : 1 ≤ sizeV v := by
  cases v with
  | ptr p => cases p <;> simp [sizeV] <;> omega
  | slice s => cases s <;> simp [sizeV] <;> omega
  | vmap m => cases m <;> simp [sizeV] <;> omega
  | _ => simp [sizeV]

theorem sizeV_lookupS {l : Smap} {k : String} {v : Value}
    (h : lookupS l k = some v) : sizeV v < sizeM l := by
  induction l with
  | nil => simp [lookupS] at h
  | cons p t ih =>
    obtain ⟨k', v'⟩ := p
    simp only [lookupS] at h
    by_cases hk : k' = k
    · simp [hk] at h
      simp [sizeM, ← h]
      omega
    · simp [hk] at h
      have := ih h
      simp [sizeM]
      omega

theorem sizeV_getFieldByName {fs : List Fld} {n : String} {v : Value}
    (h : getFieldByName fs n = some v) : sizeV v < sizeF fs := by
  induction fs with
  | nil => simp [getFieldByName] at h
  | cons f t ih =>
    simp only [getFieldByName] at h
    split at h
    · split at h
      · cases h
        simp [sizeF]
        omega
      · have := ih h
        simp [sizeF]
        omega
    · have := ih h
      simp [sizeF]
      omega

theorem sizeM_insertS (k : String) (v : Value) (l : Smap) :
    sizeM (insertS k v l) ≤ 1 + sizeV v + sizeM l := by
  induction l with
  | nil => simp [insertS, sizeM]
  | cons p t ih =>
    obtain ⟨k', v'⟩ := p
    simp only [insertS]
    split <;> simp [sizeM] <;> omega

mutual

theorem sizeV_toMapValue (v : Value) : sizeV (toMapValue v) ≤ sizeV v := by
  cases v with
  | vnil => simp [toMapValue, sizeV]
  | prim p => simp [toMapValue, sizeV]
  | uncomp t => simp [toMapValue, sizeV]
  | vtime i r => simp [toMapValue, sizeV]
  | ptr p =>
    cases p with
    | none => simp [toMapValue, sizeV]
    | some w =>
      have := sizeV_toMapValue w
      simp [toMapValue, sizeV]
      omega
  | slice s =>
    cases s with
    | none => simp [toMapValue, sizeV]
    | some xs =>
      have := sizeL_toMapList xs
      simp [toMapValue, sizeV]
      omega
  | vmap m =>
    cases m with
    | none => simp [toMapValue, sizeV]
    | some l =>
      have := sizeM_toMapEntries l
      simp [toMapValue, sizeV]
      omega
  | strct n fs =>
    have := sizeM_toMapFields fs []
    simp [toMapValue, sizeV, sizeM] at *
    omega

theorem sizeL_toMapList (xs : List Value) : sizeL (toMapList xs) ≤ sizeL xs := by
  cases xs with
  | nil => simp [toMapList]
  | cons x t =>
    have h1 := sizeV_toMapValue x
    have h2 := sizeL_toMapList t
    simp [toMapList, sizeL]
    omega

theorem sizeM_toMapEntries (l : List (String × Value)) :
    sizeM (toMapEntries l) ≤ sizeM l := by
  cases l with
  | nil => simp [toMapEntries]
  | cons p t =>
    have h1 := sizeV_toMapValue p.2
    have h2 := sizeM_toMapEntries t
    simp [toMapEntries, sizeM]
    omega

theorem sizeM_toMapFields (fs : List Fld) (acc : Smap) :
    sizeM (toMapFields fs acc) ≤ sizeF fs + sizeM acc := by
  cases fs with
  | nil => simp [toMapFields]
  | cons f t =>
    simp only [toMapFields]
    split
    · split
      · have := sizeM_toMapFields t acc
        simp [sizeF]
        have := sizeV_pos f.2.2.2
        omega
      · split
        · have := sizeM_toMapFields t acc
          simp [sizeF]
          have := sizeV_pos f.2.2.2
          omega
        · have h1 := sizeM_toMapFields t (insertS (parseName f.2.1 f.1) (toMapValue f.2.2.2) acc)
          have h2 := sizeM_insertS (parseName f.2.1 f.1) (toMapValue f.2.2.2) acc
          have h3 := sizeV_toMapValue f.2.2.2
          simp [sizeF]
          omega
    · have := sizeM_toMapFields t acc
      simp [sizeF]
      have := sizeV_pos f.2.2.2
      omega

end

theorem sizeG_ToMap (v : Value) : sizeG (ToMap v) ≤ sizeV v := by
  have h := sizeV_toMapValue v
  unfold ToMap
  split
  · rename_i m heq
    rw [heq] at h
    cases m with
    | none => simp [sizeG, sizeV] at *; exact le_trans (by omega) h
    | some l => simp [sizeG, sizeV] at *; exact h
  · simp [sizeG]
    have := sizeV_pos v
    omega

theorem sizeO_toR (v : Value) : sizeO (toR v) ≤ sizeV v := by
  unfold toR
  split
  · simp [sizeO, sizeV]
  · simp [sizeO]

mutual

/-- directValuesEqual from diff.go: compare two reflect values of the same
declared type without converting to interfaces; times compare by instant,
structs field by field (all fields), slices and maps structurally.  The
final fallback models the interface comparison with a recovered panic. -/
def directValuesEqual (a b : Value) : Bool :=
  if !dynTypeEq a b then false
  else
    match a, b with
    | .ptr pa, .ptr pb =>
      match pa, pb with
      | none, none => true
      | none, some _ => false
      | some _, none => false
      | some x, some y => directValuesEqual x y
    | .vtime i _, .vtime j _ => decide (i = j)
    | .strct _ fa, .strct _ fb =>
      decide (fa.length = fb.length) && directFldsEqual fa fb
    | .slice sa, .slice sb =>
      match sa, sb with
      | none, none => true
      | none, some _ => false
      | some _, none => false
      | some xs, some ys => decide (xs.length = ys.length) && directListEqual xs ys
    | .vmap ma, .vmap mb =>
      match ma, mb with
      | none, none => true
      | none, some _ => false
      | some _, none => false
      | some la, some lb => decide (la.length = lb.length) && directMapEntries la lb
    | _, _ => (goEq a b).getD false
  termination_by sizeV a + sizeV b
  decreasing_by all_goals (simp [sizeV, sizeF, sizeL, sizeM]; omega)

def directFldsEqual : List Fld → List Fld → Bool
  | [], [] => true
  | f :: fs, g :: gs => directValuesEqual f.2.2.2 g.2.2.2 && directFldsEqual fs gs
  | _, _ => false
  termination_by fs gs => sizeF fs + sizeF gs
  decreasing_by all_goals (simp [sizeV, sizeF, sizeL, sizeM]; omega)

def directListEqual : List Value → List Value → Bool
  | x :: xs, y :: ys => directValuesEqual x y && directListEqual xs ys
  | _, _ => true
  termination_by xs ys => sizeL xs + sizeL ys
  decreasing_by all_goals (simp [sizeV, sizeF, sizeL, sizeM]; omega)

def directMapEntries : Smap → Smap → Bool
  | [], _ => true
  | (k, va) :: rest, lb =>
    match h : lookupS lb k with
    | none => false
    | some vb => directValuesEqual va vb && directMapEntries rest lb
  termination_by la lb => sizeM la + sizeM lb
  decreasing_by
    all_goals simp [sizeM]
    all_goals try omega
    all_goals (have hs := sizeV_lookupS h; omega)

end

/-- The copy loop of DiffMaps when the old map is nil. -/
def copyGo : Smap → Smap → Smap
  | [], acc => acc
  | p :: t, acc => copyGo t (insertS p.1 p.2 acc)

def copyS (l : Smap) : Smap := copyGo l []

/-- The delete-everything loop of DiffMaps when the new map is nil. -/
def delAllGo : Smap → Smap → Smap
  | [], acc => acc
  | p :: t, acc => delAllGo t (insertS p.1 .vnil acc)

def delAllS (l : Smap) : Smap := delAllGo l []

/-- The deletion pass of DiffMaps: keys of the old map unseen while walking
the new map get a nil entry. -/
def delPassM : Smap → Smap → Smap → Smap
  | [], _, res => res
  | p :: t, nl, res =>
    if p.1 ∈ keysS nl then delPassM t nl res
    else delPassM t nl (insertS p.1 .vnil res)

/-- The deletion pass of diffSameTypeStructs over the old struct fields. -/
def delPassF : List Fld → List String → Smap → Smap
  | [], _, res => res
  | f :: fs, seen, res =>
    if f.2.2.1 && (f.2.1 != "-") then
      if parseName f.2.1 f.1 ∈ seen then delPassF fs seen res
      else if isPtrNil f.2.2.2 then delPassF fs seen res
      else delPassF fs seen (insertS (parseName f.2.1 f.1) .vnil res)
    else delPassF fs seen res

/-- The two conversions at the top of the mixed branch of Diff: a struct is
normalized with ToMap, a map is used as is, anything else stays a nil map. -/
def structOrMapToMap (v : Value) : GoMap :=
  if isStruct v then ToMap v
  else if isMap v then mapEntriesOf v
  else none

theorem sizeG_mapEntriesOf (v : Value) : sizeG (mapEntriesOf v) ≤ sizeV v := by
  cases v with
  | vmap m => cases m <;> simp [mapEntriesOf, sizeG, sizeV]
  | _ => simp [mapEntriesOf, sizeG] <;> exact sizeV_pos _

theorem sizeL_sliceElemsOf (v : Value) : sizeL (sliceElemsOf v) < sizeV v := by
  cases v with
  | slice s => cases s <;> simp [sliceElemsOf, sizeL, sizeV]
  | _ => simp [sliceElemsOf, sizeL] <;> exact sizeV_pos _

theorem sizeG_structOrMapToMap (v : Value) : sizeG (structOrMapToMap v) ≤ sizeV v := by
  unfold structOrMapToMap
  split
  · exact sizeG_ToMap v
  · split
    · exact sizeG_mapEntriesOf v
    · simp [sizeG]; exact sizeV_pos v

theorem sizeG_ToMap_vnil : sizeG (ToMap Value.vnil) = 1 := by
  simp [ToMap, toMapValue, sizeG]

mutual

/-- Diff from diff.go (current revision, returning a value and an error):
dispatch on the dynamic shapes of the two arguments. -/
def Diff (old nw : Value) : Value × Option Err :=
  if isNilV old && isNilV nw then (.vnil, none)
  else if isStruct old && isStruct nw then
    (.vmap (DiffStructs old nw).1, (DiffStructs old nw).2)
  else if isMap old && isMap nw then
    (.vmap (DiffMaps (mapEntriesOf old) (mapEntriesOf nw)).1,
      (DiffMaps (mapEntriesOf old) (mapEntriesOf nw)).2)
  else if (structOrMapToMap old).isSome || (structOrMapToMap nw).isSome then
    (.vmap (DiffMaps (structOrMapToMap old) (structOrMapToMap nw)).1,
      (DiffMaps (structOrMapToMap old) (structOrMapToMap nw)).2)
  else if safeEqual old nw then (.vnil, none)
  else (nw, none)
  termination_by 8 * (sizeV old + sizeV nw) + 6
  decreasing_by
    all_goals
      (have h1 := sizeG_mapEntriesOf old; have h2 := sizeG_mapEntriesOf nw
       have h3 := sizeG_structOrMapToMap old; have h4 := sizeG_structOrMapToMap nw
       omega)

/-- DiffStructs from diff.go. -/
def DiffStructs (old nw : Value) : GoMap × Option Err :=
  diffStructValues (toR old) (toR nw)
  termination_by 8 * (sizeV old + sizeV nw) + 5
  decreasing_by
    have h1 := sizeO_toR old
    have h2 := sizeO_toR nw
    omega

/-- diffStructValues from diff.go: handle invalid reflect values and the
nil-pointer cases, then strip one level of pointers on the old side. -/
def diffStructValues : Option Value → Option Value → GoMap × Option Err
  | none, none => (some [], none)
  | none, some nv => DiffMaps (ToMap .vnil) (ToMap nv)
  | some ov, none => DiffMaps (ToMap ov) (ToMap .vnil)
  | some (.ptr none), some nv =>
    if isPtrNil nv then (some [], none)
    else diffStructValues none (some nv)
  | some (.ptr (some ov2)), some nv => diffStructDeref ov2 nv
  | some ov, some nv => diffStructDeref ov nv
  termination_by oldVal newVal => 8 * (sizeO oldVal + sizeO newVal) + 4
  decreasing_by
    all_goals
      first
      | (have h1 := sizeG_ToMap_vnil
         have h2 := sizeG_ToMap nv
         simp [sizeO] <;> omega)
      | (have h1 := sizeG_ToMap_vnil
         have h2 := sizeG_ToMap ov
         simp [sizeO] <;> omega)
      | (simp [sizeO, sizeV] <;> omega)

/-- The second half of diffStructValues: strip a pointer on the new side,
then dispatch on struct kinds. -/
def diffStructDeref : Value → Value → GoMap × Option Err
  | ov, .ptr none => diffStructValues (some ov) none
  | ov, .ptr (some nv2) => diffStructCore ov nv2
  | ov, nv => diffStructCore ov nv
  termination_by ov nv => 8 * (sizeV ov + sizeV nv) + 3
  decreasing_by all_goals (simp [sizeO, sizeV] <;> omega)

/-- The core of diffStructValues once both sides are dereferenced: fall
back to the map pipeline unless both are structs of the same type, with
time.Time compared by instant under the empty-string sentinel key. -/
def diffStructCore : Value → Value → GoMap × Option Err
  | .vtime i _, .vtime j s =>
    if decide (i = j) then (some [], none) else (some [("", .vtime j s)], none)
  | .strct n fs, .strct m gs =>
    if n = m && decide (skelF fs = skelF gs) then diffSameTypeStructs fs gs
    else DiffMaps (ToMap (.strct n fs)) (ToMap (.strct m gs))
  | ov, nv => DiffMaps (ToMap ov) (ToMap nv)
  termination_by ov nv => 8 * (sizeV ov + sizeV nv) + 2
  decreasing_by
    all_goals
      first
      | (simp [sizeV]; omega)
      | (have h1 := sizeG_ToMap (Value.strct n fs)
         have h2 := sizeG_ToMap (Value.strct m gs)
         omega)
      | (have h1 := sizeG_ToMap ov; have h2 := sizeG_ToMap nv; omega)

/-- diffSameTypeStructs from diff.go: walk the new struct fields, then the
deletion pass over the old fields. -/
def diffSameTypeStructs (oldFs newFs : List Fld) : GoMap × Option Err :=
  match (diffNewFields oldFs newFs [] []).2.2 with
  | some e => (none, some e)
  | none =>
    (some (delPassF oldFs (diffNewFields oldFs newFs [] []).2.1
      (diffNewFields oldFs newFs [] []).1), none)
  termination_by 8 * (sizeF oldFs + sizeF newFs) + 6
  decreasing_by all_goals simp

/-- The field loop of diffSameTypeStructs, carrying the result map and the
set of effective names seen so far. -/
def diffNewFields (oldFs : List Fld) (pending : List Fld) (acc : Smap)
    (seen : List String) : Smap × List String × Option Err :=
  match pending with
  | [] => (acc, seen, none)
  | f :: rest =>
    if !(f.2.2.1 && (f.2.1 != "-")) then diffNewFields oldFs rest acc seen
    else
      if isPtrNil f.2.2.2 then
        match getFieldByName oldFs (parseName f.2.1 f.1) with
        | some ofv =>
          if !(isPtrNil ofv) then
            diffNewFields oldFs rest (insertS (parseName f.2.1 f.1) .vnil acc)
              (parseName f.2.1 f.1 :: seen)
          else diffNewFields oldFs rest acc (parseName f.2.1 f.1 :: seen)
        | none => diffNewFields oldFs rest acc (parseName f.2.1 f.1 :: seen)
      else
        match ho : getFieldByName oldFs (parseName f.2.1 f.1) with
        | none =>
          diffNewFields oldFs rest (insertS (parseName f.2.1 f.1) (toMapValue f.2.2.2) acc)
            (parseName f.2.1 f.1 :: seen)
        | some ofv =>
          if isPtrNil ofv then
            diffNewFields oldFs rest (insertS (parseName f.2.1 f.1) (toMapValue f.2.2.2) acc)
              (parseName f.2.1 f.1 :: seen)
          else if directValuesEqual ofv f.2.2.2 then
            diffNewFields oldFs rest acc (parseName f.2.1 f.1 :: seen)
          else if isTimeV ofv && isTimeV f.2.2.2 then
            diffNewFields oldFs rest (insertS (parseName f.2.1 f.1) (toMapValue f.2.2.2) acc)
              (parseName f.2.1 f.1 :: seen)
          else if (isStruct ofv || isMap ofv) && (isStruct f.2.2.2 || isMap f.2.2.2) then
            match (Diff ofv f.2.2.2).2 with
            | some e => ([], parseName f.2.1 f.1 :: seen, some e)
            | none =>
              match (Diff ofv f.2.2.2).1 with
              | .vmap (some dl) =>
                if dl.length > 0 then
                  diffNewFields oldFs rest (insertS (parseName f.2.1 f.1) (.vmap (some dl)) acc)
                    (parseName f.2.1 f.1 :: seen)
                else diffNewFields oldFs rest acc (parseName f.2.1 f.1 :: seen)
              | _ => diffNewFields oldFs rest acc (parseName f.2.1 f.1 :: seen)
          else
            diffNewFields oldFs rest (insertS (parseName f.2.1 f.1) (toMapValue f.2.2.2) acc)
              (parseName f.2.1 f.1 :: seen)
  termination_by 8 * (sizeF oldFs + sizeF pending) + 5
  decreasing_by
    all_goals simp [sizeF]
    all_goals try omega
    all_goals (have h1 := sizeV_getFieldByName ho; have h2 := sizeV_pos f.2.2.2; omega)

/-- DiffMaps from diffmaps.go (current revision, returning a map and an
error): nil handling, the loop over the new map, then the deletion pass. -/
def DiffMaps (old nw : GoMap) : GoMap × Option Err :=
  match old, nw with
  | none, none => (none, none)
  | none, some nl => (some (copyS nl), none)
  | some ol, none => (some (delAllS ol), none)
  | some ol, some nl =>
    match (diffEntries ol nl []).2 with
    | some e => (none, some e)
    | none => (some (delPassM ol nl (diffEntries ol nl []).1), none)
  termination_by 8 * (sizeG old + sizeG nw) + 1
  decreasing_by all_goals (simp [sizeG]; omega)

/-- The loop of DiffMaps over the entries of the new map. -/
def diffEntries (ol : Smap) (pending : Smap) (acc : Smap) : Smap × Option Err :=
  match pending with
  | [] => (acc, none)
  | (key, newVal) :: rest =>
    match hl : lookupS ol key with
    | none => diffEntries ol rest (insertS key newVal acc)
    | some oldVal =>
      if valuesEqual oldVal newVal then diffEntries ol rest acc
      else if (isMap oldVal || isStruct oldVal) && (isMap newVal || isStruct newVal) then
        match (Diff oldVal newVal).2 with
        | some e => ([], some e)
        | none =>
          match (Diff oldVal newVal).1 with
          | .vmap (some dl) =>
            if dl.length > 0 then diffEntries ol rest (insertS key (.vmap (some dl)) acc)
            else diffEntries ol rest acc
          | _ => diffEntries ol rest acc
      else diffEntries ol rest (insertS key newVal acc)
  termination_by 8 * (sizeM ol + sizeM pending) + 2
  decreasing_by
    all_goals simp [sizeM]
    all_goals try omega
    all_goals (have h1 := sizeV_lookupS hl; omega)

/-- valuesEqual from diffmaps.go (current revision, using safeEqual as the
final fallback). -/
def valuesEqual (a b : Value) : Bool :=
  if isNilV a && isNilV b then true
  else if isNilV a || isNilV b then false
  else if isMap a && isMap b then mapsEqual (mapEntriesOf a) (mapEntriesOf b)
  else if isSlice a && isSlice b then slicesEqual (sliceElemsOf a) (sliceElemsOf b)
  else if isStruct a && isStruct b then
    match (DiffStructs a b).2 with
    | some _ => false
    | none => decide (lenG (DiffStructs a b).1 = 0)
  else safeEqual a b
  termination_by 8 * (sizeV a + sizeV b) + 6
  decreasing_by
    all_goals
      first
      | (have h1 := sizeG_mapEntriesOf a; have h2 := sizeG_mapEntriesOf b; omega)
      | (have h1 := sizeL_sliceElemsOf a; have h2 := sizeL_sliceElemsOf b; omega)
      | omega

/-- mapsEqual from diffmaps.go. -/
def mapsEqual (a b : GoMap) : Bool :=
  if decide (lenG a ≠ lenG b) then false else mapsEqualGo (a.getD []) b
  termination_by 8 * (sizeG a + sizeG b) + 1
  decreasing_by
    cases a <;> simp [sizeG, sizeM] <;> omega

/-- The loop of mapsEqual over the entries of the first map. -/
def mapsEqualGo : Smap → GoMap → Bool
  | [], _ => true
  | (k, va) :: rest, b =>
    match hb : lookupG b k with
    | none => false
    | some vb => valuesEqual va vb && mapsEqualGo rest b
  termination_by l b => 8 * (sizeM l + sizeG b) + 0
  decreasing_by
    all_goals simp [sizeM]
    all_goals try omega
    all_goals
      (cases b with
       | none => simp [lookupG, lookupS] at hb
       | some bl =>
         have := sizeV_lookupS (show lookupS bl k = some vb by simpa [lookupG] using hb)
         simp [sizeG]
         omega)

/-- slicesEqual from diffmaps.go. -/
def slicesEqual (a b : List Value) : Bool :=
  if decide (a.length ≠ b.length) then false else slicesEqualGo a b
  termination_by 8 * (sizeL a + sizeL b) + 1
  decreasing_by omega

/-- The loop of slicesEqual. -/
def slicesEqualGo : List Value → List Value → Bool
  | x :: xs, y :: ys => valuesEqual x y && slicesEqualGo xs ys
  | _, _ => true
  termination_by xs ys => 8 * (sizeL xs + sizeL ys) + 0
  decreasing_by all_goals (simp [sizeL]; omega)

end

/-- Replace the value of the first included field with the given effective
name, leaving the rest of the catalog unchanged. -/
def setFldIncl : List Fld → String → Value → List Fld
  | [], _, _ => []
  | f :: t, k, w =>
    if f.2.2.1 && (f.2.1 != "-") && (parseName f.2.1 f.1 == k) then
      (f.1, f.2.1, f.2.2.1, w) :: t
    else f :: setFldIncl t k w

mutual

/-- Modelled from the spec: ApplyToMap (spec 4.4 applyToMapping) is absent
from the sources, which hold only its tests, callers and documentation.
Per the spec and its tests: the result is a fresh copy of the target; a
nil entry in the patch removes the key; when both the existing value and
the patch value are mappings they merge recursively; when the existing
value is a record and the patch value is a mapping the record apply engine
runs on a clone, falling back to the raw patch mapping on failure; any
other patch value replaces the existing one verbatim; two nil arguments
give a nil result. -/
def ApplyToMap (target patch : GoMap) : GoMap :=
  match target, patch with
  | none, none => none
  | t, p => some (applyEntries (t.getD []) (p.getD []))
  termination_by 4 * sizeG patch + 1
  decreasing_by cases p <;> simp [sizeG, sizeM] <;> omega

/-- Modelled from the spec: the loop of applyToMapping over the patch.
Each patch entry rewrites the current map at its key: a deletion marker
removes the key and any other outcome of the one-entry update applyAt is
stored back. -/
def applyEntries (cur : Smap) (ps : Smap) : Smap :=
  match ps with
  | [] => cur
  | (k, v) :: rest =>
    applyEntries
      (match applyAt (lookupS cur k) v with
        | none => removeS k cur
        | some w => insertS k w cur) rest
  termination_by 4 * sizeM ps + 3
  decreasing_by
    all_goals simp [sizeM, sizeV, sizeG]
    all_goals omega

/-- Modelled from the spec: the update of a single mapping entry by one
patch value.  The nil deletion marker yields none (remove the key); two
mappings merge recursively; a mapping patch against a record slot runs the
record apply engine, falling back to the raw patch mapping on failure; a
mapping patch against a timestamp keeps the timestamp only when the patch
is empty; everything else replaces the existing value verbatim. -/
def applyAt (cv : Option Value) (v : Value) : Option Value :=
  if isNilV v then none
  else
    match cv, v with
    | some (.vmap em), .vmap pm => some (.vmap (ApplyToMap em pm))
    | some (.strct tn cfs), .vmap pm =>
      match applyToStructVal cfs (pm.getD []) with
      | some fs2 => some (.strct tn fs2)
      | none => some (.vmap pm)
    | some (.vtime i r), .vmap pm =>
      match pm.getD [] with
      | [] => some (.vtime i r)
      | _ => some (.vmap pm)
    | _, _ => some v
  termination_by 4 * sizeV v + 2
  decreasing_by
    all_goals simp [sizeM, sizeV, sizeG]
    all_goals (cases pm <;> simp [sizeG, sizeM, sizeV] <;> omega)

/-- Modelled from the spec: applyToRecord (spec 4.4) walks the patch,
resolving each key through the field catalog (first included slot with the
matching effective name); a missing slot or an impossible assignment
aborts with an error (modelled as none). -/
def applyToStructVal (fs : List Fld) (patch : Smap) : Option (List Fld) :=
  match patch with
  | [] => some fs
  | (k, v) :: rest =>
    match getFieldByName fs k with
    | none => none
    | some cur =>
      match updateFld cur v with
      | none => none
      | some w => applyToStructVal (setFldIncl fs k w) rest
  termination_by 4 * sizeM patch + 2
  decreasing_by all_goals simp [sizeM] <;> omega

/-- Modelled from the spec: assignment of one patch value to one slot.
The nil deletion marker nulls a pointer slot and is an error against any
other slot; a mapping patch value merges recursively into a record or
mapping slot; every other assignment is direct (the numeric and string
coercions of spec 4.4a collapse to direct assignment in this value
model). -/
def updateFld (cur : Value) (v : Value) : Option Value :=
  match v with
  | .vnil =>
    match cur with
    | .ptr _ => some (.ptr none)
    | _ => none
  | .vmap (some pm) =>
    match cur with
    | .strct tn cfs =>
      match applyToStructVal cfs pm with
      | some fs2 => some (.strct tn fs2)
      | none => none
    | .vmap cm => some (.vmap (ApplyToMap cm (some pm)))
    | _ => some (.vmap (some pm))
  | _ => some v
  termination_by 4 * sizeV v + 3
  decreasing_by all_goals simp [sizeV, sizeM, sizeG] <;> omega

end

theorem lookupS_insertS_self (k : String) (v : Value) (l : Smap) :
    lookupS (insertS k v l) k = some v := by
  induction l with
  | nil => simp [insertS, lookupS]
  | cons p t ih =>
    obtain ⟨k', v'⟩ := p
    simp only [insertS]
    split
    · rename_i hk
      simp [lookupS, hk]
    · rename_i hk
      simp [lookupS, hk, ih]

theorem lookupS_insertS_ne {k k' : String} (v : Value) (l : Smap) (h : k' ≠ k) :
    lookupS (insertS k v l) k' = lookupS l k' := by
  induction l with
  | nil =>
    simp only [insertS, lookupS]
    rw [if_neg (fun hh => h hh.symm)]
  | cons p t ih =>
    obtain ⟨k2, v2⟩ := p
    simp only [insertS]
    split
    · rename_i hk
      subst hk
      simp only [lookupS]
      rw [if_neg (fun hh => h hh.symm), if_neg (fun hh => h hh.symm)]
    · simp only [lookupS]
      split
      · rfl
      · exact ih

theorem removeS_cons (k : String) (p : String × Value) (t : Smap) :
    removeS k (p :: t) = if p.1 = k then removeS k t else p :: removeS k t := by
  simp only [removeS, List.filter_cons]
  by_cases h : p.1 = k <;> simp [h]

theorem lookupS_removeS_self (k : String) (l : Smap) :
    lookupS (removeS k l) k = none := by
  induction l with
  | nil => simp [removeS, lookupS]
  | cons p t ih =>
    rw [removeS_cons]
    by_cases hk : p.1 = k
    · simpa [hk] using ih
    · rw [if_neg hk]
      obtain ⟨k', v'⟩ := p
      simp only [lookupS]
      rw [if_neg hk]
      exact ih

theorem lookupS_removeS_ne {k k' : String} (l : Smap) (h : k' ≠ k) :
    lookupS (removeS k l) k' = lookupS l k' := by
  induction l with
  | nil => simp [removeS, lookupS]
  | cons p t ih =>
    rw [removeS_cons]
    obtain ⟨k2, v2⟩ := p
    by_cases hk : k2 = k
    · subst hk
      rw [if_pos rfl]
      simp only [lookupS]
      rw [if_neg (fun hh : k2 = k' => h hh.symm)]
      exact ih
    · rw [if_neg hk]
      simp only [lookupS]
      by_cases hk' : k2 = k'
      · rw [if_pos hk', if_pos hk']
      · rw [if_neg hk', if_neg hk']
        exact ih

theorem lookupS_eq_none_iff {l : Smap} {k : String} :
    lookupS l k = none ↔ k ∉ keysS l := by
  induction l with
  | nil => simp [lookupS, keysS]
  | cons p t ih =>
    obtain ⟨k', v'⟩ := p
    simp only [lookupS, keysS, List.map_cons, List.mem_cons]
    by_cases hk : k' = k
    · subst hk
      simp
    · rw [if_neg hk]
      simp only [keysS] at ih
      rw [ih]
      simp [not_or, show ¬ k = k' from fun hh => hk hh.symm]

theorem lookupS_isSome_iff {l : Smap} {k : String} :
    (lookupS l k).isSome = true ↔ k ∈ keysS l := by
  rcases h : lookupS l k with _ | v
  · simp [lookupS_eq_none_iff.mp h]
  · simp
    have : ¬ lookupS l k = none := by simp [h]
    exact not_not.mp (fun hc => this (lookupS_eq_none_iff.mpr hc))

theorem keysS_cons (p : String × Value) (t : Smap) :
    keysS (p :: t) = p.1 :: keysS t := rfl

theorem keysS_insertS (k : String) (v : Value) (l : Smap) :
    keysS (insertS k v l) = if k ∈ keysS l then keysS l else keysS l ++ [k] := by
  induction l with
  | nil => simp [insertS, keysS]
  | cons p t ih =>
    obtain ⟨k', v'⟩ := p
    simp only [insertS]
    split
    · rename_i hk
      subst hk
      have hmem : k' ∈ keysS ((k', v') :: t) := by
        rw [keysS_cons]; exact List.mem_cons_self _ _
      rw [if_pos hmem]
      rw [keysS_cons, keysS_cons]
    · rename_i hk
      have hne : ¬ k = k' := fun hh => hk hh.symm
      rw [keysS_cons, keysS_cons, ih]
      by_cases hmem : k ∈ keysS t
      · rw [if_pos hmem, if_pos (List.mem_cons_of_mem _ hmem)]
      · rw [if_neg hmem, if_neg (by simp [hne, hmem])]
        rfl

theorem nodup_keysS_insertS {l : Smap} (k : String) (v : Value)
    (h : (keysS l).Nodup) : (keysS (insertS k v l)).Nodup := by
  rw [keysS_insertS]
  split
  · exact h
  · rename_i hmem
    simp [List.nodup_append, h, hmem]

theorem keysS_removeS (k : String) (l : Smap) :
    keysS (removeS k l) = (keysS l).filter (fun s => !decide (s = k)) := by
  induction l with
  | nil => simp [removeS, keysS]
  | cons p t ih =>
    rw [removeS_cons]
    by_cases hk : p.1 = k
    · rw [if_pos hk, keysS_cons, List.filter_cons]
      simp [hk, ih]
    · rw [if_neg hk, keysS_cons, keysS_cons, List.filter_cons]
      simp [hk, ih]

theorem nodup_keysS_removeS {l : Smap} (k : String)
    (h : (keysS l).Nodup) : (keysS (removeS k l)).Nodup := by
  rw [keysS_removeS]
  exact h.filter _

set_option maxHeartbeats 12000000 in
/-- The error components of the whole diff engine are always nil: no code
path constructs an error, they are only propagated. -/
theorem errs_none_all :
    (∀ old nw, (Diff old nw).2 = none) ∧
    (∀ a b, (DiffMaps a b).2 = none) ∧
    (∀ ol p acc, (diffEntries ol p acc).2 = none) ∧
    (∀ (_ _ : Value), True) ∧
    (∀ a b, (DiffStructs a b).2 = none) ∧
    (∀ o n, (diffStructValues o n).2 = none) ∧
    (∀ a b, (diffStructDeref a b).2 = none) ∧
    (∀ a b, (diffStructCore a b).2 = none) ∧
    (∀ fs gs, (diffSameTypeStructs fs gs).2 = none) ∧
    (∀ ofs p acc seen, (diffNewFields ofs p acc seen).2.2 = none) ∧
    (∀ (_ _ : List Value), True) ∧
    (∀ (_ _ : List Value), True) ∧
    (∀ (_ _ : GoMap), True) ∧
    (∀ (_ : Smap) (_ : GoMap), True) := by
  apply Diff.mutual_induct <;> intros
  all_goals try trivial
  all_goals try (unfold Diff; (repeat' split) <;> simp_all)
  all_goals try (unfold DiffMaps; (repeat' split) <;> simp_all)
  all_goals try (unfold diffEntries; (repeat' split) <;> simp_all)
  all_goals try (unfold DiffStructs; (repeat' split) <;> simp_all)
  all_goals try (unfold diffStructValues; (repeat' split) <;> simp_all)
  all_goals try (unfold diffStructDeref; (repeat' split) <;> simp_all)
  all_goals try (unfold diffSameTypeStructs; (repeat' split) <;> simp_all)
  all_goals try (unfold diffNewFields; (repeat' split) <;> simp_all)
  all_goals try (unfold diffEntries; (repeat' split) <;> (try simp_all) <;>
    (exfalso; solve_by_elim [Eq.refl, Eq.symm]))
  all_goals try (unfold diffNewFields; (repeat' split) <;> (try simp_all) <;>
    (exfalso; solve_by_elim [Eq.refl, Eq.symm]))
  all_goals (unfold diffStructCore; (repeat' split) <;> (try simp_all) <;>
    (exfalso; solve_by_elim [Eq.refl, Eq.symm]))

theorem Diff_err (old nw : Value) : (Diff old nw).2 = none :=
  errs_none_all.1 old nw

theorem DiffMaps_err (a b : GoMap) : (DiffMaps a b).2 = none :=
  errs_none_all.2.1 a b

theorem diffEntries_err (ol p acc : Smap) : (diffEntries ol p acc).2 = none :=
  errs_none_all.2.2.1 ol p acc

theorem DiffStructs_err (a b : Value) : (DiffStructs a b).2 = none :=
  errs_none_all.2.2.2.2.1 a b

theorem diffStructValues_err (o n : Option Value) : (diffStructValues o n).2 = none :=
  errs_none_all.2.2.2.2.2.1 o n

theorem diffSameTypeStructs_err (fs gs : List Fld) : (diffSameTypeStructs fs gs).2 = none :=
  errs_none_all.2.2.2.2.2.2.2.2.1 fs gs

theorem diffNewFields_err (ofs p : List Fld) (acc : Smap) (seen : List String) :
    (diffNewFields ofs p acc seen).2.2 = none :=
  errs_none_all.2.2.2.2.2.2.2.2.2.1 ofs p acc seen

theorem Diff_pair (o v : Value) : Diff o v = ((Diff o v).1, none) := by
  have h := Diff_err o v
  exact Prod.ext rfl h

/-- The composite test of the DiffMaps loop. -/
def bothComposite (a b : Value) : Bool :=
  (isMap a || isStruct a) && (isMap b || isStruct b)

/-- The value DiffMaps associates to one key, as a function of the two
sides at that key (none when the key is left out of the patch). -/
def diffAt : Option Value → Option Value → Option Value
  | none, none => none
  | none, some v => some v
  | some _, none => some .vnil
  | some o, some v =>
    if valuesEqual o v then none
    else if bothComposite o v then
      match (Diff o v).1 with
      | .vmap (some dl) => if dl.length > 0 then some (.vmap (some dl)) else none
      | _ => none
    else some v

theorem diffEntries_cons (ol : Smap) (key : String) (nv : Value) (rest acc : Smap) :
    diffEntries ol ((key, nv) :: rest) acc =
      diffEntries ol rest
        (match diffAt (lookupS ol key) (some nv) with
          | some d => insertS key d acc
          | none => acc) := by
  conv_lhs => unfold diffEntries
  (repeat' split) <;> (try simp_all [diffAt, bothComposite, Diff_err])
  all_goals
    (rename_i hvne hcomp heq2
     rw [if_neg (by
       intro hc
       rcases hcomp hc.1 with ⟨hm, hs⟩
       rcases hc.2 with hx | hx <;> simp_all)] at heq2
     simp_all)

theorem diffEntries_char (ol : Smap) (pending : Smap) (acc : Smap)
    (hnd : (keysS pending).Nodup) (k : String) :
    lookupS (diffEntries ol pending acc).1 k =
      match lookupS pending k with
      | none => lookupS acc k
      | some nv =>
        match diffAt (lookupS ol k) (some nv) with
        | some d => some d
        | none => lookupS acc k := by
  induction pending generalizing acc with
  | nil => simp [diffEntries, lookupS]
  | cons p rest ih =>
    obtain ⟨key, nv⟩ := p
    rw [keysS_cons] at hnd
    have hnd' : (keysS rest).Nodup := hnd.of_cons
    have hkey : key ∉ keysS rest := (List.nodup_cons.mp hnd).1
    rw [diffEntries_cons, ih _ hnd']
    by_cases hk : key = k
    · subst hk
      have hrest : lookupS rest key = none := lookupS_eq_none_iff.mpr hkey
      rcases hda : diffAt (lookupS ol key) (some nv) with _ | d
      · simp [lookupS, hrest, hda]
      · simp [lookupS, hrest, hda, lookupS_insertS_self]
    · have hkne : k ≠ key := fun hh => hk hh.symm
      have hpend : lookupS ((key, nv) :: rest) k = lookupS rest k := by
        simp [lookupS, fun hh : key = k => hk hh]
      rw [hpend]
      rcases hda : diffAt (lookupS ol key) (some nv) with _ | d
      · rfl
      · rw [lookupS_insertS_ne _ _ hkne]

theorem delPassM_char (ol nl res : Smap) (k : String) :
    lookupS (delPassM ol nl res) k =
      if k ∈ keysS ol ∧ k ∉ keysS nl then some Value.vnil else lookupS res k := by
  induction ol generalizing res with
  | nil => simp [delPassM, keysS]
  | cons p t ih =>
    unfold delPassM
    by_cases hseen : p.1 ∈ keysS nl
    · rw [if_pos hseen, ih]
      by_cases hk : k = p.1
      · subst hk
        simp [keysS_cons, hseen]
      · simp [keysS_cons, hk]
    · rw [if_neg hseen, ih]
      by_cases hk : k = p.1
      · subst hk
        by_cases hc : p.1 ∈ keysS t
        · simp [keysS_cons, hseen, hc]
        · simp [keysS_cons, hseen, hc, lookupS_insertS_self]
      · simp only [keysS_cons, List.mem_cons, hk, false_or]
        rw [lookupS_insertS_ne _ _ hk]

theorem copyGo_char (l acc : Smap) (hnd : (keysS l).Nodup) (k : String) :
    lookupS (copyGo l acc) k =
      match lookupS l k with
      | some v => some v
      | none => lookupS acc k := by
  induction l generalizing acc with
  | nil => simp [copyGo, lookupS]
  | cons p t ih =>
    rw [keysS_cons] at hnd
    unfold copyGo
    rw [ih _ hnd.of_cons]
    by_cases hk : k = p.1
    · subst hk
      have hnone : lookupS t p.1 = none := lookupS_eq_none_iff.mpr (List.nodup_cons.mp hnd).1
      simp [lookupS, hnone, lookupS_insertS_self]
    · obtain ⟨k2, v2⟩ := p
      simp only [lookupS]
      rw [if_neg (fun hh : k2 = k => hk hh.symm)]
      rcases lookupS t k with _ | w
      · simp [lookupS_insertS_ne _ _ hk]
      · simp

theorem delAllGo_char (l acc : Smap) (k : String) :
    lookupS (delAllGo l acc) k =
      if k ∈ keysS l then some Value.vnil else lookupS acc k := by
  induction l generalizing acc with
  | nil => simp [delAllGo, keysS]
  | cons p t ih =>
    unfold delAllGo
    rw [ih]
    by_cases hk : k = p.1
    · subst hk
      by_cases hc : p.1 ∈ keysS t
      · simp [keysS_cons, hc]
      · simp [keysS_cons, hc, lookupS_insertS_self]
    · simp only [keysS_cons, List.mem_cons, hk, false_or]
      rw [lookupS_insertS_ne _ _ hk]

/-- The per-key characterization of DiffMaps: the patch maps a key exactly
as diffAt prescribes for the two sides at that key. -/
theorem DiffMaps_char (old nw : GoMap) (hn : (keysS (nw.getD [])).Nodup) (k : String) :
    lookupG (DiffMaps old nw).1 k = diffAt (lookupG old k) (lookupG nw k) := by
  match old, nw with
  | none, none => simp [DiffMaps, lookupG, lookupS, diffAt]
  | none, some nl =>
    simp only [DiffMaps, lookupG, Option.getD]
    rw [copyS]
    rw [copyGo_char _ _ (by simpa using hn) k]
    rcases lookupS nl k with _ | v <;> simp [diffAt, lookupS]
  | some ol, none =>
    simp only [DiffMaps, lookupG, Option.getD]
    rw [delAllS, delAllGo_char]
    by_cases hc : k ∈ keysS ol
    · have : (lookupS ol k).isSome := lookupS_isSome_iff.mpr hc
      rcases ho : lookupS ol k with _ | v
      · rw [ho] at this; simp at this
      · simp [hc, ho, diffAt, lookupS]
    · have : lookupS ol k = none := lookupS_eq_none_iff.mpr hc
      simp [hc, this, diffAt, lookupS]
  | some ol, some nl =>
    have hnl : (keysS nl).Nodup := by simpa using hn
    simp only [DiffMaps, lookupG, Option.getD]
    rw [diffEntries_err]
    simp only [Option.getD]
    rw [delPassM_char, diffEntries_char _ _ _ hnl]
    rcases hlu : lookupS nl k with _ | nv
    · have hknl : k ∉ keysS nl := lookupS_eq_none_iff.mp hlu
      by_cases hc : k ∈ keysS ol
      · have : (lookupS ol k).isSome := lookupS_isSome_iff.mpr hc
        rcases ho : lookupS ol k with _ | v
        · rw [ho] at this; simp at this
        · simp [hc, hknl, ho, diffAt, lookupS]
      · have ho : lookupS ol k = none := lookupS_eq_none_iff.mpr hc
        simp [hc, hknl, ho, diffAt, lookupS]
    · have hknl : k ∈ keysS nl := by
        have : (lookupS nl k).isSome := by simp [hlu]
        exact lookupS_isSome_iff.mp this
      simp only [hknl, not_true_eq_false, and_false, if_false]
      rcases hda : diffAt (lookupS ol k) (some nv) with _ | d <;> simp [lookupS]

theorem insertS_notmem (k : String) (v : Value) (l : Smap) (h : k ∉ keysS l) :
    insertS k v l = l ++ [(k, v)] := by
  induction l with
  | nil => simp [insertS]
  | cons p t ih =>
    rw [keysS_cons, List.mem_cons] at h
    push_neg at h
    simp only [insertS]
    rw [if_neg (fun hh => h.1 hh.symm)]
    rw [ih h.2]
    simp

theorem copyGo_append (l acc : Smap) (hnd : (keysS l).Nodup)
    (hd : ∀ p ∈ l, p.1 ∉ keysS acc) : copyGo l acc = acc ++ l := by
  induction l generalizing acc with
  | nil => simp [copyGo]
  | cons p t ih =>
    rw [keysS_cons] at hnd
    unfold copyGo
    rw [insertS_notmem _ _ _ (hd p (List.mem_cons_self _ _))]
    rw [ih _ hnd.of_cons]
    · simp
    · intro q hq
      rw [keysS]
      simp only [List.map_append, List.mem_append]
      push_neg
      refine ⟨hd q (List.mem_cons_of_mem _ hq), ?_⟩
      have hqp : q.1 ≠ p.1 := by
        intro hh
        have := (List.nodup_cons.mp hnd).1
        rw [← hh] at this
        exact this (List.mem_map_of_mem _ hq)
      simpa using hqp

theorem delAllGo_append (l acc : Smap) (hnd : (keysS l).Nodup)
    (hd : ∀ p ∈ l, p.1 ∉ keysS acc) :
    delAllGo l acc = acc ++ l.map (fun p => (p.1, Value.vnil)) := by
  induction l generalizing acc with
  | nil => simp [delAllGo]
  | cons p t ih =>
    rw [keysS_cons] at hnd
    unfold delAllGo
    rw [insertS_notmem _ _ _ (hd p (List.mem_cons_self _ _))]
    rw [ih _ hnd.of_cons]
    · simp
    · intro q hq
      rw [keysS]
      simp only [List.map_append, List.mem_append]
      push_neg
      refine ⟨hd q (List.mem_cons_of_mem _ hq), ?_⟩
      have hqp : q.1 ≠ p.1 := by
        intro hh
        have := (List.nodup_cons.mp hnd).1
        rw [← hh] at this
        exact this (List.mem_map_of_mem _ hq)
      simpa using hqp

theorem copyS_eq_self (l : Smap) (hnd : (keysS l).Nodup) : copyS l = l := by
  rw [copyS, copyGo_append l [] hnd (by simp [keysS])]
  simp

theorem delAllS_eq_map (l : Smap) (hnd : (keysS l).Nodup) :
    delAllS l = l.map (fun p => (p.1, Value.vnil)) := by
  rw [delAllS, delAllGo_append l [] hnd (by simp [keysS])]
  simp

theorem diffEntries_nilold (pending acc : Smap) :
    diffEntries [] pending acc = (copyGo pending acc, none) := by
  induction pending generalizing acc with
  | nil => simp [diffEntries, copyGo]
  | cons p t ih =>
    obtain ⟨k, v⟩ := p
    unfold diffEntries copyGo
    simp [lookupS, ih]

theorem delPassM_nilnew (l res : Smap) : delPassM l [] res = delAllGo l res := by
  induction l generalizing res with
  | nil => simp [delPassM, delAllGo]
  | cons p t ih =>
    unfold delPassM delAllGo
    simp [keysS, ih]

theorem DiffStructs_time (i : Int) (r : Nat) (j : Int) (s : Nat) :
    DiffStructs (.vtime i r) (.vtime j s) =
      (if i = j then some [] else some [("", .vtime j s)], none) := by
  unfold DiffStructs toR diffStructValues diffStructDeref diffStructCore
  by_cases hij : i = j <;> simp [hij, isStructKind]

theorem valuesEqual_time (i : Int) (r : Nat) (j : Int) (s : Nat) :
    valuesEqual (.vtime i r) (.vtime j s) = decide (i = j) := by
  unfold valuesEqual
  rw [DiffStructs_time]
  by_cases hij : i = j <;>
    simp [hij, isNilV, isMap, isSlice, isStruct, lenG]

theorem Diff_time (i : Int) (r : Nat) (j : Int) (s : Nat) :
    Diff (.vtime i r) (.vtime j s) =
      (.vmap (if i = j then some [] else some [("", .vtime j s)]), none) := by
  unfold Diff
  rw [DiffStructs_time]
  by_cases hij : i = j <;> simp [hij, isNilV, isStruct]

/-- C10: on every input the error results of Diff, DiffStructs and
DiffMaps are nil; no execution path of the diff engine constructs a
non-nil error, so diffing always succeeds. -/
theorem diff_engine_error_free :
    (∀ old nw : Value, (Diff old nw).2 = none) ∧
    (∀ old nw : Value, (DiffStructs old nw).2 = none) ∧
    (∀ old nw : GoMap, (DiffMaps old nw).2 = none) :=
  ⟨Diff_err, DiffStructs_err, DiffMaps_err⟩

/-- C7: the leaf comparison of the diff engine is total: safeEqual returns
the result of the Go interface comparison when that comparison is defined,
and degrades to not-equal (false) instead of propagating the panic when
the dynamic shapes are uncomparable; valuesEqual inherits this on
uncomparable leaves. -/
theorem safeEqual_never_panics :
    (∀ a b : Value, goEq a b = none → safeEqual a b = false) ∧
    (∀ (a b : Value) (r : Bool), goEq a b = some r → safeEqual a b = r) ∧
    (∀ i j : Nat, valuesEqual (.uncomp i) (.uncomp j) = false) := by
  refine ⟨?_, ?_, ?_⟩
  · intro a b h
    simp [safeEqual, h]
  · intro a b r h
    simp [safeEqual, h]
  · intro i j
    by_cases hij : i = j <;>
      simp [valuesEqual, isNilV, isMap, isSlice, isStruct, safeEqual, goEq, hij]

/-- Witness for C7 at a concrete uncomparable pair. -/
theorem safeEqual_never_panics_w :
    goEq (.uncomp 0) (.uncomp 0) = none ∧ safeEqual (.uncomp 0) (.uncomp 0) = false :=
  ⟨by simp [goEq], safeEqual_never_panics.1 (.uncomp 0) (.uncomp 0) (by simp [goEq])⟩

/-- C3: every key present in a patch produced by DiffMaps is a real
change: the key is present on only one side, or the two sides hold values
the engine considers unequal. -/
theorem diffMaps_no_unchanged_keys (old nw : GoMap)
    (hn : (keysS (nw.getD [])).Nodup) (k : String) (v : Value)
    (h : lookupG (DiffMaps old nw).1 k = some v) :
    lookupG old k = none ∨ lookupG nw k = none ∨
      ∃ ov nv, lookupG old k = some ov ∧ lookupG nw k = some nv ∧
        valuesEqual ov nv = false := by
  rw [DiffMaps_char old nw hn k] at h
  rcases ho : lookupG old k with _ | ov
  · exact Or.inl rfl
  · rcases hn2 : lookupG nw k with _ | nv
    · exact Or.inr (Or.inl rfl)
    · refine Or.inr (Or.inr ⟨ov, nv, rfl, rfl, ?_⟩)
      rw [ho, hn2] at h
      by_cases heq : valuesEqual ov nv
      · simp [diffAt, heq] at h
      · simpa using heq

/-- Witness for C3 at a concrete changed key. -/
theorem diffMaps_no_unchanged_keys_w :
    lookupG (some [("a", Value.prim (.pint 1))]) "a" = none ∨
    lookupG (some [("a", Value.prim (.pint 2))]) "a" = none ∨
      ∃ ov nv, lookupG (some [("a", Value.prim (.pint 1))]) "a" = some ov ∧
        lookupG (some [("a", Value.prim (.pint 2))]) "a" = some nv ∧
        valuesEqual ov nv = false :=
  diffMaps_no_unchanged_keys (some [("a", Value.prim (.pint 1))])
    (some [("a", Value.prim (.pint 2))]) (by simp [keysS]) "a" (.prim (.pint 2))
    (by simp [DiffMaps, diffEntries, diffEntries_err, lookupS, lookupG, valuesEqual,
      isNilV, isMap, isStruct, isSlice, safeEqual, goEq, delPassM, keysS, insertS])

/-- C2 counterexample: on two unequal non-composite leaves the current
Diff returns the new value itself, not a single-entry patch under the
empty-string sentinel key. -/
theorem diff_leaf_wholesale_cex :
    Diff (.prim (.pint 1)) (.prim (.pint 2)) = (.prim (.pint 2), none) ∧
    Value.prim (.pint 2) ≠ Value.vmap (some [("", Value.prim (.pint 2))]) := by
  constructor
  · simp [Diff, isNilV, isStruct, isMap, isSlice, structOrMapToMap, ToMap,
      toMapValue, mapEntriesOf, safeEqual, goEq]
  · simp

/-- C2 amended: when neither argument is a struct nor a map, Diff compares
with the panic-safe equality; on equal values the result is empty (nil),
on unequal values it is the new value wholesale, with a nil error. -/
theorem diff_leaf_wholesale (old nw : Value)
    (h1 : isStruct old = false) (h2 : isMap old = false)
    (h3 : isStruct nw = false) (h4 : isMap nw = false) :
    Diff old nw = ((if safeEqual old nw then .vnil else nw), none) := by
  unfold Diff
  have hsm1 : structOrMapToMap old = none := by
    unfold structOrMapToMap
    simp [h1, h2]
  have hsm2 : structOrMapToMap nw = none := by
    unfold structOrMapToMap
    simp [h3, h4]
  by_cases hnil : (isNilV old && isNilV nw) = true
  · rw [if_pos hnil]
    simp only [Bool.and_eq_true] at hnil
    have hold : old = .vnil := by
      cases old <;> simp_all [isNilV]
    have hnw : nw = .vnil := by
      cases nw <;> simp_all [isNilV]
    subst hold
    subst hnw
    simp [safeEqual, goEq]
  · rw [if_neg hnil]
    simp only [h1, h2, h3, h4, hsm1, hsm2, Bool.false_and, Bool.and_false,
      Option.isSome_none, Bool.or_self, Bool.false_eq_true, if_false]
    by_cases hse : safeEqual old nw <;> simp [hse]

/-- Witness for C2 amended at a concrete unequal leaf pair. -/
theorem diff_leaf_wholesale_w :
    Diff (.prim (.pstr "a")) (.prim (.pstr "b")) =
      ((if safeEqual (.prim (.pstr "a")) (.prim (.pstr "b")) then .vnil
        else .prim (.pstr "b")), none) :=
  diff_leaf_wholesale (.prim (.pstr "a")) (.prim (.pstr "b")) rfl rfl rfl rfl

/-- C4 counterexample: for mappings holding time values with different
instants at a common key, the patch entry is a single-entry nested mapping
under the empty-string key, not the literal new timestamp. -/
theorem diffMaps_time_nested_cex :
    lookupG (DiffMaps (some [("t", Value.vtime 0 0)])
        (some [("t", Value.vtime 1 0)])).1 "t" =
      some (.vmap (some [("", .vtime 1 0)])) ∧
    Value.vmap (some [("", Value.vtime 1 0)]) ≠ Value.vtime 1 0 := by
  constructor
  · simp [DiffMaps, diffEntries, lookupS, lookupG, valuesEqual, isNilV, isMap,
      isStruct, isSlice, mapEntriesOf, DiffStructs, toR, diffStructValues,
      diffStructDeref, diffStructCore, sliceElemsOf, lenG, Diff, delPassM,
      keysS, insertS, safeEqual, goEq, isStructKind]
  · simp

/-- C4 amended: when two mappings hold time values with different instants
at a common key, DiffMaps emits at that key the single-entry mapping under
the empty-string sentinel holding the literal new timestamp; the engine
never recurses into the fields of the timestamps themselves. -/
theorem diffMaps_time_nested (old nw : GoMap)
    (hn : (keysS (nw.getD [])).Nodup) (k : String)
    (i : Int) (r : Nat) (j : Int) (s : Nat)
    (ho : lookupG old k = some (.vtime i r))
    (hnw : lookupG nw k = some (.vtime j s))
    (hij : i ≠ j) :
    lookupG (DiffMaps old nw).1 k = some (.vmap (some [("", .vtime j s)])) := by
  rw [DiffMaps_char old nw hn k, ho, hnw]
  simp [diffAt, valuesEqual_time, hij, bothComposite, isMap, isStruct, Diff_time]

/-- Witness for C4 amended at a concrete pair of time-valued mappings. -/
theorem diffMaps_time_nested_w :
    lookupG (DiffMaps (some [("t", Value.vtime 3 5)])
        (some [("t", Value.vtime 4 5)])).1 "t" =
      some (.vmap (some [("", .vtime 4 5)])) :=
  diffMaps_time_nested (some [("t", Value.vtime 3 5)]) (some [("t", Value.vtime 4 5)])
    (by simp [keysS]) "t" 3 5 4 5 (by simp [lookupG, lookupS])
    (by simp [lookupG, lookupS]) (by decide)

/-- C5: diffing a mapping against an empty or nil mapping marks every key
of the mapping as a deletion, and diffing from an empty or nil mapping
reproduces the mapping itself. -/
theorem diffMaps_deletion_symmetry (M : Smap) (hnd : (keysS M).Nodup) :
    DiffMaps (some M) (some []) = (some (M.map (fun p => (p.1, Value.vnil))), none) ∧
    DiffMaps (some M) none = (some (M.map (fun p => (p.1, Value.vnil))), none) ∧
    DiffMaps (some []) (some M) = (some M, none) ∧
    DiffMaps none (some M) = (some M, none) := by
  refine ⟨?_, ?_, ?_, ?_⟩
  · unfold DiffMaps
    simp [diffEntries, delPassM_nilnew, delAllGo_append M [] hnd (by simp [keysS])]
  · unfold DiffMaps
    rw [delAllS_eq_map M hnd]
  · unfold DiffMaps
    rw [diffEntries_nilold]
    simp only []
    rw [show copyGo M [] = copyS M from rfl, copyS_eq_self M hnd]
    have : ∀ res, delPassM ([] : Smap) M res = res := fun _ => by simp [delPassM]
    simp [this]
  · unfold DiffMaps
    rw [copyS_eq_self M hnd]

/-- Witness for C5 at a concrete two-key mapping. -/
theorem diffMaps_deletion_symmetry_w :
    DiffMaps (some [("a", Value.prim (.pint 1)), ("b", Value.prim (.pbool true))])
        (some []) =
      (some [("a", Value.vnil), ("b", Value.vnil)], none) ∧
    DiffMaps (some [("a", Value.prim (.pint 1)), ("b", Value.prim (.pbool true))])
        none =
      (some [("a", Value.vnil), ("b", Value.vnil)], none) ∧
    DiffMaps (some []) (some [("a", Value.prim (.pint 1)), ("b", Value.prim (.pbool true))]) =
      (some [("a", Value.prim (.pint 1)), ("b", Value.prim (.pbool true))], none) ∧
    DiffMaps none (some [("a", Value.prim (.pint 1)), ("b", Value.prim (.pbool true))]) =
      (some [("a", Value.prim (.pint 1)), ("b", Value.prim (.pbool true))], none) :=
  diffMaps_deletion_symmetry
    [("a", Value.prim (.pint 1)), ("b", Value.prim (.pbool true))] (by simp [keysS])

/-- C6 counterexample: a nil-valued key present only in the new mapping is
copied verbatim, so the patch maps a key to nil that is not present in the
old mapping. -/
theorem diffMaps_deletion_markers_cex :
    lookupG (DiffMaps (some []) (some [("k", Value.vnil)])).1 "k" = some Value.vnil ∧
    lookupG (some []) "k" = none := by
  constructor
  · simp [DiffMaps, diffEntries, lookupS, lookupG, delPassM, keysS, insertS]
  · rfl

/-- C6 amended: every key a DiffMaps patch maps to the nil deletion marker
is either present in the old mapping and effectively absent in the new one
(missing or nil-valued), or absent from the old mapping while the new
mapping itself maps it to nil (nil additions are copied verbatim). -/
theorem diffMaps_deletion_markers (old nw : GoMap)
    (hn : (keysS (nw.getD [])).Nodup) (k : String)
    (h : lookupG (DiffMaps old nw).1 k = some Value.vnil) :
    (∃ ov, lookupG old k = some ov ∧
      (lookupG nw k = none ∨ lookupG nw k = some Value.vnil)) ∨
    (lookupG old k = none ∧ lookupG nw k = some Value.vnil) := by
  rw [DiffMaps_char old nw hn k] at h
  rcases ho : lookupG old k with _ | ov
  · rcases hn2 : lookupG nw k with _ | nv
    · rw [ho, hn2] at h
      simp [diffAt] at h
    · rw [ho, hn2] at h
      simp only [diffAt, Option.some.injEq] at h
      exact Or.inr ⟨rfl, by rw [h]⟩
  · rcases hn2 : lookupG nw k with _ | nv
    · exact Or.inl ⟨ov, rfl, Or.inl rfl⟩
    · rw [ho, hn2] at h
      refine Or.inl ⟨ov, rfl, Or.inr ?_⟩
      simp only [diffAt] at h
      split at h
      · simp at h
      · split at h
        · split at h
          · rename_i dl _
            split at h
            · simp at h
            · simp at h
          · simp at h
        · simp at h
          rw [h]

/-- Witness for C6 amended at a concrete deletion. -/
theorem diffMaps_deletion_markers_w :
    (∃ ov, lookupG (some [("k", Value.prim (.pint 7))]) "k" = some ov ∧
      (lookupG (some ([] : Smap)) "k" = none ∨
        lookupG (some ([] : Smap)) "k" = some Value.vnil)) ∨
    (lookupG (some [("k", Value.prim (.pint 7))]) "k" = none ∧
      lookupG (some ([] : Smap)) "k" = some Value.vnil) :=
  diffMaps_deletion_markers (some [("k", Value.prim (.pint 7))]) (some []) (by simp [keysS])
    "k" (by simp [DiffMaps, diffEntries, lookupS, lookupG, delPassM, keysS, insertS])

/-- The effective names of the included fields, in declaration order. -/
def inclNames (fs : List Fld) : List String :=
  (fs.filter (fun f => included f)).map effName

theorem inclNames_cons (g : Fld) (fs : List Fld) :
    inclNames (g :: fs) =
      if included g then effName g :: inclNames fs else inclNames fs := by
  simp only [inclNames, List.filter_cons]
  by_cases h : included g <;> simp [h]

theorem toMapFields_lookup_notin (fs : List Fld) (acc : Smap) (k : String)
    (hnone : ∀ f ∈ fs, included f = true → effName f ≠ k) :
    lookupS (toMapFields fs acc) k = lookupS acc k := by
  induction fs generalizing acc with
  | nil => simp [toMapFields]
  | cons g t ih =>
    unfold toMapFields
    have hrest : ∀ f ∈ t, included f = true → effName f ≠ k :=
      fun f hf => hnone f (List.mem_cons_of_mem _ hf)
    by_cases hinc : (g.2.2.1 && (g.2.1 != "-")) = true
    · rw [if_pos hinc]
      have hgk : parseName g.2.1 g.1 ≠ k := hnone g (List.mem_cons_self _ _) hinc
      by_cases hptr : isPtrNil g.2.2.2 = true
      · rw [if_pos hptr]
        exact ih _ hrest
      · rw [if_neg hptr]
        by_cases hnil : isNilV (toMapValue g.2.2.2) = true
        · rw [if_pos hnil]
          exact ih _ hrest
        · rw [if_neg hnil]
          rw [ih _ hrest]
          exact lookupS_insertS_ne _ _ (Ne.symm hgk)
    · rw [if_neg hinc]
      exact ih _ hrest

theorem toMapFields_lookup_found (fs : List Fld) (acc : Smap) (f : Fld)
    (hf : f ∈ fs) (hinc : included f = true) (hnd : (inclNames fs).Nodup) :
    lookupS (toMapFields fs acc) (effName f) =
      if isPtrNil (fldVal f) = true ∨ isNilV (toMapValue (fldVal f)) = true then
        lookupS acc (effName f)
      else some (toMapValue (fldVal f)) := by
  induction fs generalizing acc with
  | nil => simp at hf
  | cons g t ih =>
    rw [inclNames_cons] at hnd
    rcases List.mem_cons.mp hf with hfg | hft
    · subst hfg
      rw [if_pos hinc] at hnd
      have hnotin : ∀ q ∈ t, included q = true → effName q ≠ effName f := by
        intro q hq hqinc hqeq
        have : effName f ∈ inclNames t := by
          rw [← hqeq]
          exact List.mem_map_of_mem _ (List.mem_filter.mpr ⟨hq, by simp [hqinc]⟩)
        exact (List.nodup_cons.mp hnd).1 this
      unfold toMapFields
      have hinc' : (f.2.2.1 && (f.2.1 != "-")) = true := by
        simpa [included, fldExp, fldTag] using hinc
      rw [if_pos hinc']
      by_cases hptr : isPtrNil f.2.2.2 = true
      · rw [if_pos hptr]
        rw [toMapFields_lookup_notin t acc _ hnotin]
        rw [if_pos (Or.inl (by simpa [fldVal] using hptr))]
      · rw [if_neg hptr]
        by_cases hnil : isNilV (toMapValue f.2.2.2) = true
        · rw [if_pos hnil]
          rw [toMapFields_lookup_notin t acc _ hnotin]
          rw [if_pos (Or.inr (by simpa [fldVal] using hnil))]
        · rw [if_neg hnil]
          rw [toMapFields_lookup_notin t _ _ hnotin]
          rw [if_neg (by simp [fldVal] at hptr hnil ⊢; exact ⟨hptr, hnil⟩)]
          exact lookupS_insertS_self _ _ _
    · have hnd' : (inclNames t).Nodup := by
        by_cases hig : included g = true
        · rw [if_pos hig] at hnd
          exact hnd.of_cons
        · rwa [if_neg hig] at hnd
      unfold toMapFields
      by_cases hig : (g.2.2.1 && (g.2.1 != "-")) = true
      · have higb : included g = true := by simpa [included, fldExp, fldTag] using hig
        rw [if_pos higb] at hnd
        have hne : effName g ≠ effName f := by
          intro hh
          have : effName f ∈ inclNames t := by
            exact List.mem_map_of_mem _ (List.mem_filter.mpr ⟨hft, by simp [hinc]⟩)
          rw [← hh] at this
          exact (List.nodup_cons.mp hnd).1 this
        rw [if_pos hig]
        by_cases hptr : isPtrNil g.2.2.2 = true
        · rw [if_pos hptr]
          exact ih acc hft hnd'
        · rw [if_neg hptr]
          by_cases hnil : isNilV (toMapValue g.2.2.2) = true
          · rw [if_pos hnil]
            exact ih acc hft hnd'
          · rw [if_neg hnil]
            rw [ih _ hft hnd']
            by_cases hcond : isPtrNil (fldVal f) = true ∨ isNilV (toMapValue (fldVal f)) = true
            · rw [if_pos hcond, if_pos hcond]
              exact lookupS_insertS_ne _ _ (fun hh => hne hh.symm)
            · rw [if_neg hcond, if_neg hcond]
      · rw [if_neg hig]
        exact ih acc hft hnd'

theorem ToMap_strct (tyName : String) (fs : List Fld) :
    ToMap (.strct tyName fs) = some (toMapFields fs []) := by
  simp [ToMap, toMapValue]

/-- C8: ToMap omits entirely every included slot holding a nil pointer, a
nil slice or a nil map, while always including present-but-zero values
(empty string, zero, false, empty non-nil slice); the omitempty modifier
only affects the parsed name's modifiers and is ignored, so emptiness
alone never causes omission (the inclusion facts hold for every tag). -/
theorem toMap_omission_law (tyName : String) (fs : List Fld) (f : Fld)
    (hnd : (inclNames fs).Nodup) (hf : f ∈ fs) (hexp : fldExp f = true)
    (htag : fldTag f ≠ "-") :
    (fldVal f = .ptr none → lookupG (ToMap (.strct tyName fs)) (effName f) = none) ∧
    (fldVal f = .slice none → lookupG (ToMap (.strct tyName fs)) (effName f) = none) ∧
    (fldVal f = .vmap none → lookupG (ToMap (.strct tyName fs)) (effName f) = none) ∧
    (∀ p, fldVal f = .prim p →
      lookupG (ToMap (.strct tyName fs)) (effName f) = some (.prim p)) ∧
    (fldVal f = .slice (some []) →
      lookupG (ToMap (.strct tyName fs)) (effName f) = some (.slice (some []))) ∧
    parseName "name,omitempty" "Fallback" = "name" := by
  have hinc : included f = true := by
    simp [included, hexp, htag]
  have hbase := toMapFields_lookup_found fs [] f hf hinc hnd
  rw [ToMap_strct]
  have hlook : lookupG (some (toMapFields fs [])) (effName f) =
      lookupS (toMapFields fs []) (effName f) := rfl
  refine ⟨?_, ?_, ?_, ?_, ?_, by decide⟩
  · intro hv
    rw [hlook, hbase, if_pos (Or.inl (by simp [hv, isPtrNil]))]
    rfl
  · intro hv
    rw [hlook, hbase, if_pos (Or.inr (by simp [hv, toMapValue, isNilV]))]
    rfl
  · intro hv
    rw [hlook, hbase, if_pos (Or.inr (by simp [hv, toMapValue, isNilV]))]
    rfl
  · intro p hv
    rw [hlook, hbase, if_neg (by simp [hv, toMapValue, isNilV, isPtrNil])]
    simp [hv, toMapValue]
  · intro hv
    rw [hlook, hbase, if_neg (by simp [hv, toMapValue, toMapList, isNilV, isPtrNil])]
    simp [hv, toMapValue, toMapList]

/-- Witness for C8 on a concrete struct with a nil pointer and a
present-but-empty string under an omitempty tag. -/
theorem toMap_omission_law_w :
    (Value.ptr none = Value.ptr none →
      lookupG (ToMap (.strct "S" [("A", "", true, Value.ptr none),
        ("B", "b,omitempty", true, Value.prim (.pstr ""))])) "A" = none) ∧
    lookupG (ToMap (.strct "S" [("A", "", true, Value.ptr none),
        ("B", "b,omitempty", true, Value.prim (.pstr ""))])) "b" =
      some (.prim (.pstr "")) := by
  constructor
  · intro h
    have := toMap_omission_law "S"
      [("A", "", true, Value.ptr none), ("B", "b,omitempty", true, Value.prim (.pstr ""))]
      ("A", "", true, Value.ptr none) (by decide) (by simp) rfl (by decide)
    have h2 := this.1 rfl
    simpa [effName, fldTag, fldName] using h2
  · have := toMap_omission_law "S"
      [("A", "", true, Value.ptr none), ("B", "b,omitempty", true, Value.prim (.pstr ""))]
      ("B", "b,omitempty", true, Value.prim (.pstr "")) (by decide) (by simp) rfl (by decide)
    have h2 := this.2.2.2.1 (.pstr "") rfl
    simpa [effName, fldTag, fldName] using h2

theorem inclNames_eq_of_skel : ∀ {fs gs : List Fld},
    skelF fs = skelF gs → inclNames fs = inclNames gs := by
  intro fs
  induction fs with
  | nil =>
    intro gs h
    cases gs with
    | nil => rfl
    | cons g u => simp [skelF] at h
  | cons f t ih =>
    intro gs h
    cases gs with
    | nil => simp [skelF] at h
    | cons g u =>
      simp only [skelF, List.map_cons, List.cons.injEq] at h
      obtain ⟨h1, h2⟩ := h
      rw [Prod.ext_iff] at h1
      obtain ⟨e1, h1'⟩ := h1
      rw [Prod.ext_iff] at h1'
      obtain ⟨e2, e3⟩ := h1'
      have e1' : f.1 = g.1 := e1
      have e2' : f.2.1 = g.2.1 := e2
      have e3' : f.2.2.1 = g.2.2.1 := e3
      have hskel : skelF t = skelF u := h2
      have hincl : included f = included g := by
        simp [included, fldExp, fldTag, e2', e3']
      have heff : effName f = effName g := by
        simp [effName, fldTag, fldName, e1', e2']
      rw [inclNames_cons, inclNames_cons, ih hskel, hincl, heff]

theorem getFieldByName_none_iff (fs : List Fld) (k : String) :
    getFieldByName fs k = none ↔ k ∉ inclNames fs := by
  induction fs with
  | nil => simp [getFieldByName, inclNames]
  | cons f t ih =>
    rw [inclNames_cons]
    unfold getFieldByName
    by_cases hinc : (f.2.2.1 && (f.2.1 != "-")) = true
    · rw [if_pos hinc]
      have hincl : included f = true := by simpa [included, fldExp, fldTag] using hinc
      rw [if_pos hincl]
      by_cases hk : parseName f.2.1 f.1 = k
      · rw [if_pos hk]
        constructor
        · intro h; cases h
        · intro h
          exfalso
          exact h (by simp [effName, fldTag, fldName, hk])
      · rw [if_neg hk, ih]
        constructor
        · intro h hmem
          rcases List.mem_cons.mp hmem with he | ht
          · exact hk (by simpa [effName, fldTag, fldName] using he.symm)
          · exact h ht
        · intro h ht
          exact h (List.mem_cons_of_mem _ ht)
    · rw [if_neg hinc]
      have hincl : ¬ included f = true := by simpa [included, fldExp, fldTag] using hinc
      rw [if_neg hincl, ih]

theorem toMapValue_prim (p : Prim) : toMapValue (.prim p) = .prim p := by
  simp [toMapValue]

/-- On a struct whose field values are all primitives, the normalizer keeps
every included field verbatim, so lookup agrees with the catalog scan. -/
theorem toMapFields_prim_char (fs : List Fld)
    (hp : ∀ f ∈ fs, ∃ p, fldVal f = Value.prim p)
    (hnd : (inclNames fs).Nodup) (acc : Smap) (k : String) :
    lookupS (toMapFields fs acc) k =
      match getFieldByName fs k with
      | some v => some v
      | none => lookupS acc k := by
  induction fs generalizing acc with
  | nil => simp [toMapFields, getFieldByName]
  | cons f t ih =>
    rw [inclNames_cons] at hnd
    have hpt : ∀ q ∈ t, ∃ p, fldVal q = Value.prim p :=
      fun q hq => hp q (List.mem_cons_of_mem _ hq)
    obtain ⟨p, hfp⟩ := hp f (List.mem_cons_self _ _)
    have hfp' : f.2.2.2 = Value.prim p := hfp
    unfold toMapFields getFieldByName
    by_cases hinc : (f.2.2.1 && (f.2.1 != "-")) = true
    · have hincl : included f = true := by simpa [included, fldExp, fldTag] using hinc
      rw [if_pos hincl] at hnd
      rw [if_pos hinc, if_pos hinc, hfp']
      rw [if_neg (by simp [isPtrNil])]
      simp only [toMapValue_prim]
      rw [if_neg (by simp [isNilV])]
      by_cases hk : parseName f.2.1 f.1 = k
      · rw [if_pos hk]
        have hnotin : ∀ q ∈ t, included q = true → effName q ≠ k := by
          intro q hq hqinc hqeq
          have : k ∈ inclNames t := by
            rw [← hqeq]
            exact List.mem_map_of_mem _ (List.mem_filter.mpr ⟨hq, by simp [hqinc]⟩)
          have : effName f ∈ inclNames t := by
            simpa [effName, fldTag, fldName, hk] using this
          exact (List.nodup_cons.mp hnd).1 this
        rw [toMapFields_lookup_notin t _ _ hnotin, hk]
        rw [lookupS_insertS_self]
      · rw [if_neg hk, ih hpt hnd.of_cons]
        rcases hgf : getFieldByName t k with _ | w
        · simp only []
          exact lookupS_insertS_ne _ _ (fun hh => hk hh.symm)
        · simp only []
    · have hincl : ¬ included f = true := by simpa [included, fldExp, fldTag] using hinc
      rw [if_neg hincl] at hnd
      rw [if_neg hinc, if_neg hinc]
      exact ih hpt hnd acc

/-- On a struct whose field values are all primitives, the keys of the
normalized map are exactly the included effective names, in order. -/
theorem toMapFields_prim_keys (fs : List Fld)
    (hp : ∀ f ∈ fs, ∃ p, fldVal f = Value.prim p)
    (hnd : (inclNames fs).Nodup) :
    ∀ acc : Smap, (∀ s ∈ inclNames fs, s ∉ keysS acc) →
      keysS (toMapFields fs acc) = keysS acc ++ inclNames fs := by
  induction fs with
  | nil => intro acc _; simp [toMapFields, inclNames]
  | cons f t ih =>
    intro acc hdisj
    rw [inclNames_cons] at hnd hdisj ⊢
    have hpt : ∀ q ∈ t, ∃ p, fldVal q = Value.prim p :=
      fun q hq => hp q (List.mem_cons_of_mem _ hq)
    obtain ⟨p, hfp⟩ := hp f (List.mem_cons_self _ _)
    have hfp' : f.2.2.2 = Value.prim p := hfp
    unfold toMapFields
    by_cases hinc : (f.2.2.1 && (f.2.1 != "-")) = true
    · have hincl : included f = true := by simpa [included, fldExp, fldTag] using hinc
      rw [if_pos hincl] at hnd hdisj ⊢
      rw [if_pos hinc, hfp']
      rw [if_neg (by simp [isPtrNil])]
      simp only [toMapValue_prim]
      rw [if_neg (by simp [isNilV])]
      have hnmem : parseName f.2.1 f.1 ∉ keysS acc := by
        have := hdisj (effName f) (List.mem_cons_self _ _)
        simpa [effName, fldTag, fldName] using this
      rw [insertS_notmem _ _ _ hnmem] at *
      rw [ih hpt hnd.of_cons (acc ++ [(parseName f.2.1 f.1, Value.prim p)]) ?_]
      · simp [keysS, effName, fldTag, fldName]
      · intro s hs
        simp only [keysS, List.map_append, List.mem_append]
        push_neg
        constructor
        · exact hdisj s (List.mem_cons_of_mem _ hs)
        · intro hc
          simp [keysS] at hc
          rw [hc] at hs
          exact (List.nodup_cons.mp hnd).1 (by simpa [effName, fldTag, fldName] using hs)
    · have hincl : ¬ included f = true := by simpa [included, fldExp, fldTag] using hinc
      rw [if_neg hincl] at hnd hdisj ⊢
      rw [if_neg hinc]
      exact ih hpt hnd acc hdisj

theorem getFieldByName_cons (f : Fld) (t : List Fld) (k : String) :
    getFieldByName (f :: t) k =
      if included f = true then
        (if effName f = k then some f.2.2.2 else getFieldByName t k)
      else getFieldByName t k := by
  by_cases h : (f.2.2.1 && (f.2.1 != "-")) = true
  · rw [if_pos (show included f = true from h)]
    conv_lhs => unfold getFieldByName
    rw [if_pos h]
    rfl
  · rw [if_neg (show ¬ included f = true from h)]
    conv_lhs => unfold getFieldByName
    rw [if_neg h]

theorem isPtrNil_true {v : Value} (h : isPtrNil v = true) : v = Value.ptr none := by
  rcases v with _ | p | i | ⟨ti, tr⟩ | po | s | m | ⟨n, fs⟩ <;>
    first
    | (rcases po with _ | w <;> simp [isPtrNil] at h ⊢)
    | simp [isPtrNil] at h

theorem directValuesEqual_ptrNone_prim (p : Prim) :
    directValuesEqual (Value.ptr none) (Value.prim p) = false := by
  simp [directValuesEqual, dynTypeEq]

/-- One step of the field loop of diffSameTypeStructs when the new field
value is a primitive: a changed or added field is copied verbatim, an
unchanged one is skipped, and the effective name is marked seen. -/
theorem diffNewFields_cons_prim (fs : List Fld) (g : Fld) (t : List Fld)
    (acc : Smap) (seen : List String) (p : Prim) (hgp : g.2.2.2 = Value.prim p) :
    diffNewFields fs (g :: t) acc seen =
      if included g = true then
        match getFieldByName fs (effName g) with
        | none => diffNewFields fs t (insertS (effName g) (.prim p) acc) (effName g :: seen)
        | some ov =>
          if directValuesEqual ov (.prim p) = true then
            diffNewFields fs t acc (effName g :: seen)
          else diffNewFields fs t (insertS (effName g) (.prim p) acc) (effName g :: seen)
      else diffNewFields fs t acc seen := by
  conv_lhs => unfold diffNewFields
  rw [hgp]
  by_cases hinc : (g.2.2.1 && (g.2.1 != "-")) = true
  · rw [if_pos (show included g = true from hinc)]
    simp only [hinc, Bool.not_true, Bool.false_eq_true, if_false]
    rw [if_neg (by simp [isPtrNil])]
    have heq : parseName g.2.1 g.1 = effName g := rfl
    rw [heq]
    rcases hof : getFieldByName fs (effName g) with _ | ov
    · simp [toMapValue]
    · simp only []
      by_cases hptr : isPtrNil ov = true
      · rw [if_pos hptr]
        have hovn : ov = Value.ptr none := isPtrNil_true hptr
        rw [if_neg (by
          rw [hovn, directValuesEqual_ptrNone_prim]
          simp)]
        simp [toMapValue]
      · rw [if_neg hptr]
        by_cases hdve : directValuesEqual ov (Value.prim p) = true
        · rw [if_pos hdve, if_pos hdve]
        · rw [if_neg hdve, if_neg hdve]
          have ht : isTimeV (Value.prim p) = false := rfl
          rw [if_neg (by rw [ht, Bool.and_false]; simp)]
          have hc : (isStruct (Value.prim p) || isMap (Value.prim p)) = false := rfl
          rw [if_neg (by rw [hc, Bool.and_false]; simp)]
          simp [toMapValue]
  · rw [if_neg (show ¬ included g = true from hinc)]
    have hfalse : (g.2.2.1 && (g.2.1 != "-")) = false := by
      revert hinc
      cases (g.2.2.1 && (g.2.1 != "-")) <;> simp
    rw [hfalse]
    simp

/-- Every included effective name of the walked fields ends up in the seen
set of diffNewFields when all new field values are primitives. -/
theorem diffNewFields_prim_seen (fs : List Fld) : ∀ (gs : List Fld) (acc : Smap)
    (seen : List String), (∀ f ∈ gs, ∃ p, fldVal f = Value.prim p) →
    ∀ s, (s ∈ (diffNewFields fs gs acc seen).2.1 ↔ s ∈ inclNames gs ∨ s ∈ seen) := by
  intro gs
  induction gs with
  | nil =>
    intro acc seen _ s
    simp [diffNewFields, inclNames]
  | cons g t ih =>
    intro acc seen hpg s
    obtain ⟨p, hgp⟩ := hpg g (List.mem_cons_self _ _)
    have hpt : ∀ q ∈ t, ∃ p, fldVal q = Value.prim p :=
      fun q hq => hpg q (List.mem_cons_of_mem _ hq)
    rw [diffNewFields_cons_prim fs g t acc seen p hgp, inclNames_cons]
    by_cases hincl : included g = true
    · rw [if_pos hincl, if_pos hincl]
      rcases getFieldByName fs (effName g) with _ | ov
      · rw [ih _ _ hpt s]
        simp only [List.mem_cons]
        tauto
      · simp only []
        by_cases hdve : directValuesEqual ov (Value.prim p) = true

        · rw [if_pos hdve, ih _ _ hpt s]
          simp only [List.mem_cons]
          tauto
        · rw [if_neg hdve, ih _ _ hpt s]
          simp only [List.mem_cons]
          tauto
    · rw [if_neg hincl, if_neg hincl]
      exact ih _ _ hpt s

/-- The loop of diffSameTypeStructs does not touch a key that no included
new field bears. -/
theorem diffNewFields_prim_notin (fs : List Fld) : ∀ (gs : List Fld) (acc : Smap)
    (seen : List String) (k : String),
    (∀ f ∈ gs, ∃ p, fldVal f = Value.prim p) →
    (∀ f ∈ gs, included f = true → effName f ≠ k) →
    lookupS (diffNewFields fs gs acc seen).1 k = lookupS acc k := by
  intro gs
  induction gs with
  | nil =>
    intro acc seen k _ _
    simp [diffNewFields]
  | cons g t ih =>
    intro acc seen k hpg hnone
    obtain ⟨p, hgp⟩ := hpg g (List.mem_cons_self _ _)
    have hpt : ∀ q ∈ t, ∃ p, fldVal q = Value.prim p :=
      fun q hq => hpg q (List.mem_cons_of_mem _ hq)
    have hnt : ∀ q ∈ t, included q = true → effName q ≠ k :=
      fun q hq => hnone q (List.mem_cons_of_mem _ hq)
    rw [diffNewFields_cons_prim fs g t acc seen p hgp]
    by_cases hincl : included g = true
    · rw [if_pos hincl]
      have hgk : effName g ≠ k := hnone g (List.mem_cons_self _ _) hincl
      rcases getFieldByName fs (effName g) with _ | ov
      · rw [ih _ _ _ hpt hnt, lookupS_insertS_ne _ _ (Ne.symm hgk)]
      · simp only []
        by_cases hdve : directValuesEqual ov (Value.prim p) = true
        · rw [if_pos hdve, ih _ _ _ hpt hnt]
        · rw [if_neg hdve, ih _ _ _ hpt hnt, lookupS_insertS_ne _ _ (Ne.symm hgk)]
    · rw [if_neg hincl]
      exact ih _ _ _ hpt hnt

/-- Lookup in the result of the field loop of diffSameTypeStructs on
primitive-valued fields: an added or changed field is present verbatim, an
unchanged or absent one falls through to the accumulator. -/
theorem diffNewFields_prim_char (fs : List Fld) : ∀ (gs : List Fld) (acc : Smap)
    (seen : List String) (k : String),
    (∀ f ∈ gs, ∃ p, fldVal f = Value.prim p) →
    (inclNames gs).Nodup →
    lookupS (diffNewFields fs gs acc seen).1 k =
      match getFieldByName gs k with
      | none => lookupS acc k
      | some nv =>
        match getFieldByName fs k with
        | none => some nv
        | some ov => if directValuesEqual ov nv = true then lookupS acc k else some nv := by
  intro gs
  induction gs with
  | nil =>
    intro acc seen k _ _
    simp [diffNewFields, getFieldByName]
  | cons g t ih =>
    intro acc seen k hpg hnd
    obtain ⟨p, hgp⟩ := hpg g (List.mem_cons_self _ _)
    have hpt : ∀ q ∈ t, ∃ p, fldVal q = Value.prim p :=
      fun q hq => hpg q (List.mem_cons_of_mem _ hq)
    rw [inclNames_cons] at hnd
    rw [diffNewFields_cons_prim fs g t acc seen p hgp, getFieldByName_cons]
    by_cases hincl : included g = true
    · rw [if_pos hincl, if_pos hincl]
      rw [if_pos hincl] at hnd
      have hndt : (inclNames t).Nodup := hnd.of_cons
      have hnt : ∀ q ∈ t, included q = true → effName q ≠ effName g := by
        intro q hq hqinc hqeq
        have : effName g ∈ inclNames t := by
          rw [← hqeq]
          exact List.mem_map_of_mem _ (List.mem_filter.mpr ⟨hq, by simp [hqinc]⟩)
        exact (List.nodup_cons.mp hnd).1 this
      by_cases hk : effName g = k
      · subst hk
        have hgp' : g.2.2.2 = Value.prim p := hgp
        rw [if_pos rfl, hgp']
        have hnt' : ∀ q ∈ t, included q = true → effName q ≠ effName g := hnt
        rcases getFieldByName fs (effName g) with _ | ov
        · rw [diffNewFields_prim_notin fs t _ _ _ hpt hnt']
          rw [lookupS_insertS_self]
        · simp only []
          by_cases hdve : directValuesEqual ov (Value.prim p) = true
          · rw [if_pos hdve, if_pos hdve]
            exact diffNewFields_prim_notin fs t _ _ _ hpt hnt'
          · rw [if_neg hdve, if_neg hdve]
            rw [diffNewFields_prim_notin fs t _ _ _ hpt hnt']
            rw [lookupS_insertS_self]
      · rw [if_neg hk]
        rcases getFieldByName fs (effName g) with _ | ov
        · rw [ih _ _ _ hpt hndt]
          rw [lookupS_insertS_ne (Value.prim p) acc (Ne.symm hk)]
        · simp only []
          by_cases hdve : directValuesEqual ov (Value.prim p) = true
          · rw [if_pos hdve]
            exact ih _ _ _ hpt hndt
          · rw [if_neg hdve, ih _ _ _ hpt hndt]
            rw [lookupS_insertS_ne (Value.prim p) acc (Ne.symm hk)]
    · rw [if_neg hincl, if_neg hincl]
      rw [if_neg hincl] at hnd
      exact ih _ _ _ hpt hnd

/-- Lookup in the deletion pass of diffSameTypeStructs on primitive-valued
old fields: an included old name not seen while walking the new fields is
marked deleted. -/
theorem delPassF_prim_char (fs : List Fld) : ∀ (seen : List String) (res : Smap)
    (k : String), (∀ f ∈ fs, ∃ p, fldVal f = Value.prim p) →
    lookupS (delPassF fs seen res) k =
      if k ∈ inclNames fs ∧ k ∉ seen then some Value.vnil else lookupS res k := by
  induction fs with
  | nil =>
    intro seen res k _
    simp [delPassF, inclNames]
  | cons f t ih =>
    intro seen res k hpf
    obtain ⟨p, hfp⟩ := hpf f (List.mem_cons_self _ _)
    have hfp' : f.2.2.2 = Value.prim p := hfp
    have hpt : ∀ q ∈ t, ∃ p, fldVal q = Value.prim p :=
      fun q hq => hpf q (List.mem_cons_of_mem _ hq)
    rw [inclNames_cons]
    unfold delPassF
    by_cases hinc : (f.2.2.1 && (f.2.1 != "-")) = true
    · rw [if_pos hinc, if_pos (show included f = true from hinc)]
      have heq : parseName f.2.1 f.1 = effName f := rfl
      by_cases hseen : parseName f.2.1 f.1 ∈ seen
      · rw [if_pos hseen, ih _ _ _ hpt]
        by_cases hk : k = effName f
        · subst hk
          rw [if_neg (by
            intro hc
            exact hc.2 (by rw [← heq]; exact hseen))]
          rw [if_neg (by
            intro hc
            exact hc.2 (by rw [← heq]; exact hseen))]
        · by_cases hc : k ∈ inclNames t ∧ k ∉ seen
          · rw [if_pos hc, if_pos ⟨List.mem_cons_of_mem _ hc.1, hc.2⟩]
          · rw [if_neg hc, if_neg (by
              intro hc2
              exact hc ⟨(List.mem_cons.mp hc2.1).resolve_left hk, hc2.2⟩)]
      · rw [if_neg hseen]
        rw [hfp']
        rw [if_neg (by simp [isPtrNil])]
        rw [ih _ _ _ hpt]
        by_cases hk : k = effName f
        · subst hk
          have hsn : effName f ∉ seen := by rw [← heq]; exact hseen
          by_cases hc : effName f ∈ inclNames t ∧ effName f ∉ seen
          · rw [if_pos hc, if_pos ⟨List.mem_cons_self _ _, hsn⟩]
          · rw [if_neg hc, if_pos ⟨List.mem_cons_self _ _, hsn⟩, heq, lookupS_insertS_self]
        · by_cases hc : k ∈ inclNames t ∧ k ∉ seen
          · rw [if_pos hc, if_pos ⟨List.mem_cons_of_mem _ hc.1, hc.2⟩]
          · rw [if_neg hc, if_neg (by
              intro hc2
              exact hc ⟨(List.mem_cons.mp hc2.1).resolve_left hk, hc2.2⟩)]
            rw [heq]
            exact lookupS_insertS_ne _ _ hk
    · rw [if_neg hinc, if_neg (show ¬ included f = true from hinc)]
      exact ih _ _ _ hpt

theorem lookupG_some (l : Smap) (k : String) : lookupG (some l) k = lookupS l k := rfl

theorem getFieldByName_mem : ∀ {fs : List Fld} {k : String} {v : Value},
    getFieldByName fs k = some v → ∃ f ∈ fs, fldVal f = v := by
  intro fs
  induction fs with
  | nil =>
    intro k v h
    simp [getFieldByName] at h
  | cons f t ih =>
    intro k v h
    rw [getFieldByName_cons] at h
    by_cases hincl : included f = true
    · rw [if_pos hincl] at h
      by_cases hk : effName f = k
      · rw [if_pos hk] at h
        exact ⟨f, List.mem_cons_self _ _, (Option.some.inj h)⟩
      · rw [if_neg hk] at h
        obtain ⟨q, hq, hv⟩ := ih h
        exact ⟨q, List.mem_cons_of_mem _ hq, hv⟩
    · rw [if_neg hincl] at h
      obtain ⟨q, hq, hv⟩ := ih h
      exact ⟨q, List.mem_cons_of_mem _ hq, hv⟩

theorem directValuesEqual_prim (a b : Prim) :
    directValuesEqual (.prim a) (.prim b) = valuesEqual (.prim a) (.prim b) := by
  cases a <;> cases b <;>
    simp [directValuesEqual, valuesEqual, dynTypeEq, primTagEq, safeEqual, goEq,
      isNilV, isMap, isSlice, isStruct]

theorem diffAt_prim (a b : Prim) :
    diffAt (some (.prim a)) (some (.prim b)) =
      if valuesEqual (.prim a) (.prim b) = true then none else some (.prim b) := by
  by_cases h : valuesEqual (.prim a) (.prim b) = true
  · simp [diffAt, h]
  · simp [diffAt, h, bothComposite, isMap, isStruct]

/-- DiffStructs on two non-nil struct values of the same type reduces to
the field-by-field walk. -/
theorem DiffStructs_same (ty : String) (fs gs : List Fld)
    (hskel : skelF fs = skelF gs) :
    DiffStructs (.strct ty fs) (.strct ty gs) = diffSameTypeStructs fs gs := by
  simp [DiffStructs, toR, diffStructValues, diffStructDeref, diffStructCore, hskel]

theorem diffSameTypeStructs_eq (fs gs : List Fld) :
    diffSameTypeStructs fs gs =
      (some (delPassF fs (diffNewFields fs gs [] []).2.1
        (diffNewFields fs gs [] []).1), none) := by
  unfold diffSameTypeStructs
  rw [diffNewFields_err]

/-- The counterexample to the unrestricted refinement: a same-type struct
with a time.Time field diffs to the literal new timestamp on the direct
path, but to a nested one-entry patch under the empty-string key on the
normalize-then-diff path. -/
theorem diffStructs_refines_toMap_cex :
    (DiffStructs (.strct "T" [("Created", "created", true, .vtime 0 0)])
        (.strct "T" [("Created", "created", true, .vtime 1 0)])).1 ≠
      (DiffMaps (ToMap (.strct "T" [("Created", "created", true, .vtime 0 0)]))
        (ToMap (.strct "T" [("Created", "created", true, .vtime 1 0)]))).1 := by
  simp [DiffStructs, toR, diffStructValues, diffStructDeref, diffStructCore, skelF,
    diffSameTypeStructs, diffNewFields, getFieldByName, parseName, tagHead, isPtrNil,
    directValuesEqual, dynTypeEq, isTimeV, delPassF, insertS, ToMap, toMapValue,
    toMapFields, isNilV, DiffMaps, diffEntries, lookupS, valuesEqual, isMap, isSlice,
    isStruct, mapEntriesOf, safeEqual, goEq, Diff, structOrMapToMap, delPassM, keysS,
    lookupG, lenG]

/-- C9: restricted to same-type structs all of whose field values are
primitive leaves, the direct struct diff agrees pointwise with the naive
normalize-then-diff pipeline DiffMaps (ToMap old) (ToMap new); the
unrestricted equation fails on time.Time fields (see the counterexample),
whose direct diff emits the literal timestamp while the map pipeline emits
a nested empty-string patch. -/
theorem diffStructs_refines_toMap (ty : String) (fs gs : List Fld)
    (hskel : skelF fs = skelF gs)
    (hnd : (inclNames fs).Nodup)
    (hpf : ∀ f ∈ fs, ∃ p, fldVal f = Value.prim p)
    (hpg : ∀ f ∈ gs, ∃ p, fldVal f = Value.prim p)
    (k : String) :
    lookupG (DiffStructs (.strct ty fs) (.strct ty gs)).1 k =
      lookupG (DiffMaps (ToMap (.strct ty fs)) (ToMap (.strct ty gs))).1 k := by
  have hndg : (inclNames gs).Nodup := inclNames_eq_of_skel hskel ▸ hnd
  have hkeys : keysS (toMapFields gs []) = inclNames gs := by
    simpa [keysS] using toMapFields_prim_keys gs hpg hndg [] (by simp [keysS])
  have hndk : (keysS (toMapFields gs [])).Nodup := by rw [hkeys]; exact hndg
  rw [ToMap_strct, ToMap_strct]
  rw [DiffMaps_char (some (toMapFields fs [])) (some (toMapFields gs []))
    (by simpa using hndk) k]
  rw [lookupG_some, lookupG_some]
  rw [toMapFields_prim_char fs hpf hnd [] k, toMapFields_prim_char gs hpg hndg [] k]
  rw [DiffStructs_same ty fs gs hskel, diffSameTypeStructs_eq]
  show lookupS (delPassF fs (diffNewFields fs gs [] []).2.1
    (diffNewFields fs gs [] []).1) k = _
  rw [delPassF_prim_char fs _ _ k hpf]
  rw [diffNewFields_prim_char fs gs [] [] k hpg hndg]
  have hseen := diffNewFields_prim_seen fs gs [] [] hpg k
  rcases hgk : getFieldByName gs k with _ | nv
  · have hkg : k ∉ inclNames gs := (getFieldByName_none_iff gs k).mp hgk
    have hks : k ∉ (diffNewFields fs gs [] []).2.1 := by
      intro hc
      rcases hseen.mp hc with h | h
      · exact hkg h
      · simp at h
    rcases hfk : getFieldByName fs k with _ | ov
    · have hkf : k ∉ inclNames fs := (getFieldByName_none_iff fs k).mp hfk
      rw [if_neg (by intro hc; exact hkf hc.1)]
      simp [diffAt, lookupS]
    · have hkf : k ∈ inclNames fs := by
        by_contra hc
        have h2 := (getFieldByName_none_iff fs k).mpr hc
        rw [hfk] at h2
        simp at h2
      rw [if_pos ⟨hkf, hks⟩]
      simp [diffAt, lookupS]
  · have hkg : k ∈ inclNames gs := by
      by_contra hc
      have h2 := (getFieldByName_none_iff gs k).mpr hc
      rw [hgk] at h2
      simp at h2
    have hks : k ∈ (diffNewFields fs gs [] []).2.1 := hseen.mpr (Or.inl hkg)
    rw [if_neg (by intro hc; exact hc.2 hks)]
    obtain ⟨gfld, hgmem, hgv⟩ := getFieldByName_mem hgk
    obtain ⟨b, hb⟩ := hpg gfld hgmem
    have hnvb : nv = Value.prim b := by rw [← hgv, hb]
    subst hnvb
    rcases hfk : getFieldByName fs k with _ | ov
    · simp [diffAt, lookupS]
    · obtain ⟨ffld, hfmem, hfv⟩ := getFieldByName_mem hfk
      obtain ⟨a, ha⟩ := hpf ffld hfmem
      have hova : ov = Value.prim a := by rw [← hfv, ha]
      subst hova
      rw [diffAt_prim]
      show (if directValuesEqual (Value.prim a) (Value.prim b) = true then lookupS [] k
        else some (Value.prim b)) = _
      rw [directValuesEqual_prim]
      by_cases hve : valuesEqual (.prim a) (.prim b) = true
      · rw [if_pos hve, if_pos hve]
        simp [lookupS]
      · rw [if_neg hve, if_neg hve]

/-- Witness for C9 on a one-field struct of integers. -/
theorem diffStructs_refines_toMap_w :
    lookupG (DiffStructs (.strct "T" [("A", "", true, Value.prim (.pint 1))])
        (.strct "T" [("A", "", true, Value.prim (.pint 2))])).1 "A" =
      lookupG (DiffMaps (ToMap (.strct "T" [("A", "", true, Value.prim (.pint 1))]))
        (ToMap (.strct "T" [("A", "", true, Value.prim (.pint 2))]))).1 "A" :=
  diffStructs_refines_toMap "T"
    [("A", "", true, Value.prim (.pint 1))] [("A", "", true, Value.prim (.pint 2))]
    rfl (by decide)
    (by
      intro f hf
      rw [List.mem_singleton] at hf
      subst hf
      exact ⟨.pint 1, rfl⟩)
    (by
      intro f hf
      rw [List.mem_singleton] at hf
      subst hf
      exact ⟨.pint 2, rfl⟩)
    "A"

theorem applyEntries_cons (cur : Smap) (k : String) (v : Value) (rest : Smap) :
    applyEntries cur ((k, v) :: rest) =
      applyEntries
        (match applyAt (lookupS cur k) v with
          | none => removeS k cur
          | some w => insertS k w cur) rest := by
  conv_lhs => unfold applyEntries

theorem applyEntries_notin : ∀ (ps cur : Smap) (k : String), k ∉ keysS ps →
    lookupS (applyEntries cur ps) k = lookupS cur k := by
  intro ps
  induction ps with
  | nil =>
    intro cur k _
    simp [applyEntries]
  | cons p rest ih =>
    intro cur k hk
    obtain ⟨k', v⟩ := p
    rw [keysS_cons, List.mem_cons] at hk
    push_neg at hk
    rw [applyEntries_cons, ih _ _ hk.2]
    rcases applyAt (lookupS cur k') v with _ | w
    · exact lookupS_removeS_ne cur hk.1
    · exact lookupS_insertS_ne w cur hk.1

/-- Lookup through the apply loop: on a patch with distinct keys, the value
at a key is the one-entry update applied to the target's value there. -/
theorem applyEntries_char : ∀ (ps cur : Smap) (k : String), (keysS ps).Nodup →
    lookupS (applyEntries cur ps) k =
      match lookupS ps k with
      | none => lookupS cur k
      | some v => applyAt (lookupS cur k) v := by
  intro ps
  induction ps with
  | nil =>
    intro cur k _
    simp [applyEntries, lookupS]
  | cons p rest ih =>
    intro cur k hnd
    obtain ⟨k', v⟩ := p
    rw [keysS_cons] at hnd
    rw [applyEntries_cons]
    by_cases hk : k' = k
    · subst hk
      rw [applyEntries_notin rest _ k' (List.nodup_cons.mp hnd).1]
      have hl : lookupS ((k', v) :: rest) k' = some v := by simp [lookupS]
      rw [hl]
      rcases hA : applyAt (lookupS cur k') v with _ | w
      · show lookupS (removeS k' cur) k' = applyAt (lookupS cur k') v
        rw [hA]
        exact lookupS_removeS_self _ _
      · show lookupS (insertS k' w cur) k' = applyAt (lookupS cur k') v
        rw [hA]
        exact lookupS_insertS_self _ _ _
    · have hl : lookupS ((k', v) :: rest) k = lookupS rest k := by
        simp only [lookupS]
        rw [if_neg hk]
      rw [ih _ _ (List.nodup_cons.mp hnd).2, hl]
      have hne : k ≠ k' := fun h => hk h.symm
      rcases applyAt (lookupS cur k') v with _ | w
      · rw [lookupS_removeS_ne cur hne]
      · rw [lookupS_insertS_ne w cur hne]

theorem nodup_applyEntries : ∀ (ps cur : Smap), (keysS cur).Nodup →
    (keysS (applyEntries cur ps)).Nodup := by
  intro ps
  induction ps with
  | nil =>
    intro cur h
    simpa [applyEntries] using h
  | cons p rest ih =>
    intro cur h
    obtain ⟨k', v⟩ := p
    rw [applyEntries_cons]
    rcases applyAt (lookupS cur k') v with _ | w
    · exact ih _ (nodup_keysS_removeS _ h)
    · exact ih _ (nodup_keysS_insertS _ _ h)

theorem nodup_diffEntries : ∀ (pending ol acc : Smap), (keysS acc).Nodup →
    (keysS (diffEntries ol pending acc).1).Nodup := by
  intro pending
  induction pending with
  | nil =>
    intro ol acc h
    simpa [diffEntries] using h
  | cons p rest ih =>
    intro ol acc h
    obtain ⟨k, nv⟩ := p
    rw [diffEntries_cons]
    rcases diffAt (lookupS ol k) (some nv) with _ | d
    · exact ih _ _ h
    · exact ih _ _ (nodup_keysS_insertS _ _ h)

theorem nodup_delPassM : ∀ (ol nl res : Smap), (keysS res).Nodup →
    (keysS (delPassM ol nl res)).Nodup := by
  intro ol
  induction ol with
  | nil =>
    intro nl res h
    simpa [delPassM] using h
  | cons p t ih =>
    intro nl res h
    unfold delPassM
    by_cases hm : p.1 ∈ keysS nl
    · rw [if_pos hm]
      exact ih _ _ h
    · rw [if_neg hm]
      exact ih _ _ (nodup_keysS_insertS _ _ h)

theorem lookupS_of_mem_nodup : ∀ {l : Smap} {k : String} {v : Value},
    (k, v) ∈ l → (keysS l).Nodup → lookupS l k = some v := by
  intro l
  induction l with
  | nil =>
    intro k v h _
    simp at h
  | cons p t ih =>
    intro k v h hnd
    rw [keysS_cons] at hnd
    rcases List.mem_cons.mp h with he | ht
    · rw [← he]
      simp [lookupS]
    · obtain ⟨k', v'⟩ := p
      simp only [lookupS]
      by_cases hk : k' = k
      · subst hk
        exfalso
        exact (List.nodup_cons.mp hnd).1
          (by simpa [keysS] using List.mem_map_of_mem Prod.fst ht)
      · rw [if_neg hk]
        exact ih ht (List.nodup_cons.mp hnd).2

theorem mem_of_lookupS : ∀ {l : Smap} {k : String} {v : Value},
    lookupS l k = some v → (k, v) ∈ l := by
  intro l
  induction l with
  | nil =>
    intro k v h
    simp [lookupS] at h
  | cons p t ih =>
    intro k v h
    obtain ⟨k', v'⟩ := p
    simp only [lookupS] at h
    by_cases hk : k' = k
    · rw [if_pos hk] at h
      subst hk
      have hv : v' = v := Option.some.inj h
      subst hv
      exact List.mem_cons_self _ _
    · rw [if_neg hk] at h
      exact List.mem_cons_of_mem _ (ih h)

theorem valuesEqual_prim_iff (p q : Prim) :
    valuesEqual (.prim p) (.prim q) = true ↔ p = q := by
  simp [valuesEqual, isNilV, isMap, isSlice, isStruct, safeEqual, goEq]

theorem mapsEqualGo_true : ∀ (a : Smap) (b : GoMap),
    (∀ p ∈ a, ∃ vb, lookupG b p.1 = some vb ∧ valuesEqual p.2 vb = true) →
    mapsEqualGo a b = true := by
  intro a
  induction a with
  | nil =>
    intro b _
    simp [mapsEqualGo]
  | cons p rest ih =>
    intro b h
    obtain ⟨k, va⟩ := p
    obtain ⟨vb, hvb, hve⟩ := h (k, va) (List.mem_cons_self _ _)
    unfold mapsEqualGo
    split
    · rename_i hb
      rw [hb] at hvb
      simp at hvb
    · rename_i vb2 hb
      rw [hb] at hvb
      have hv : vb2 = vb := Option.some.inj hvb
      subst hv
      rw [hve, ih b (fun q hq => h q (List.mem_cons_of_mem _ hq))]
      rfl

theorem DiffMaps_some (ol nl : Smap) :
    DiffMaps (some ol) (some nl) =
      (some (delPassM ol nl (diffEntries ol nl []).1), none) := by
  simp [DiffMaps, diffEntries_err]

theorem ApplyToMap_some (l : Smap) (p : GoMap) :
    ApplyToMap (some l) p = some (applyEntries l (p.getD [])) := by
  cases p <;> simp [ApplyToMap]

/-- The pointwise round trip on flat primitive-valued maps: applying the
patch produced by DiffMaps to the old map gives the new map's value at
every key. -/
theorem roundtrip_pointwise (l₁ l₂ : Smap)
    (hnd₂ : (keysS l₂).Nodup)
    (hp₁ : ∀ p ∈ l₁, ∃ q, p.2 = Value.prim q)
    (hp₂ : ∀ p ∈ l₂, ∃ q, p.2 = Value.prim q)
    (k : String) :
    lookupS (applyEntries l₁ (delPassM l₁ l₂ (diffEntries l₁ l₂ []).1)) k =
      lookupS l₂ k := by
  have hpatch : lookupS (delPassM l₁ l₂ (diffEntries l₁ l₂ []).1) k =
      diffAt (lookupS l₁ k) (lookupS l₂ k) := by
    have hchar := DiffMaps_char (some l₁) (some l₂) (by simpa using hnd₂) k
    rw [DiffMaps_some] at hchar
    simpa [lookupG] using hchar
  have hndp : (keysS (delPassM l₁ l₂ (diffEntries l₁ l₂ []).1)).Nodup :=
    nodup_delPassM _ _ _ (nodup_diffEntries l₂ l₁ [] (by simp [keysS]))
  rw [applyEntries_char _ _ k hndp, hpatch]
  rcases h1 : lookupS l₁ k with _ | a
  · rcases h2 : lookupS l₂ k with _ | b
    · simp [diffAt]
    · obtain ⟨q, hq⟩ := hp₂ (k, b) (mem_of_lookupS h2)
      have hq' : b = Value.prim q := hq
      subst hq'
      simp [diffAt, applyAt, isNilV]
  · obtain ⟨qa, hqa⟩ := hp₁ (k, a) (mem_of_lookupS h1)
    have hqa' : a = Value.prim qa := hqa
    subst hqa'
    rcases h2 : lookupS l₂ k with _ | b
    · simp [diffAt, applyAt, isNilV]
    · obtain ⟨qb, hqb⟩ := hp₂ (k, b) (mem_of_lookupS h2)
      have hqb' : b = Value.prim qb := hqb
      subst hqb'
      rw [diffAt_prim]
      by_cases hve : valuesEqual (.prim qa) (.prim qb) = true
      · rw [if_pos hve]
        have hqq : qa = qb := (valuesEqual_prim_iff qa qb).mp hve
        subst hqq
        simp
      · rw [if_neg hve]
        simp [applyAt, isNilV]

/-- The round-trip law fails as stated: a nil-valued addition in the new
map is copied verbatim into the patch, and applying that patch deletes the
key instead of storing the nil value, so the result differs from new. -/
theorem applyToMap_roundtrip_cex :
    mapsEqual (ApplyToMap (some []) (DiffMaps (some []) (some [("k", Value.vnil)])).1)
      (some [("k", Value.vnil)]) = false := by
  simp [DiffMaps, diffEntries, lookupS, delPassM, keysS, insertS, ApplyToMap,
    applyEntries, applyAt, removeS, isNilV, mapsEqual, lenG]

/-- C1: on flat string-keyed mappings with distinct keys whose values are
all primitive leaves, applying the patch produced by DiffMaps(old, new)
back onto old yields a mapping deeply equal to new; the unrestricted law
fails when new itself holds a nil value (see the counterexample), because
the patch then carries a deletion marker for a key that new does hold. -/
theorem applyToMap_roundtrip (l₁ l₂ : Smap)
    (hnd₁ : (keysS l₁).Nodup) (hnd₂ : (keysS l₂).Nodup)
    (hp₁ : ∀ p ∈ l₁, ∃ q, p.2 = Value.prim q)
    (hp₂ : ∀ p ∈ l₂, ∃ q, p.2 = Value.prim q) :
    mapsEqual (ApplyToMap (some l₁) (DiffMaps (some l₁) (some l₂)).1)
      (some l₂) = true := by
  rw [DiffMaps_some, ApplyToMap_some]
  have hpoint : ∀ k, lookupS (applyEntries l₁
      ((some (delPassM l₁ l₂ (diffEntries l₁ l₂ []).1) : GoMap).getD [])) k =
      lookupS l₂ k := fun k => roundtrip_pointwise l₁ l₂ hnd₂ hp₁ hp₂ k
  have hndR : (keysS (applyEntries l₁
      ((some (delPassM l₁ l₂ (diffEntries l₁ l₂ []).1) : GoMap).getD []))).Nodup :=
    nodup_applyEntries _ _ hnd₁
  have hmem : ∀ s, s ∈ keysS (applyEntries l₁
      ((some (delPassM l₁ l₂ (diffEntries l₁ l₂ []).1) : GoMap).getD [])) ↔
      s ∈ keysS l₂ := by
    intro s
    rw [← lookupS_isSome_iff, ← lookupS_isSome_iff, hpoint s]
  have hperm := (List.perm_ext_iff_of_nodup hndR hnd₂).mpr hmem
  have hlen : (applyEntries l₁
      ((some (delPassM l₁ l₂ (diffEntries l₁ l₂ []).1) : GoMap).getD [])).length =
      l₂.length := by
    have hl := hperm.length_eq
    simpa [keysS] using hl
  unfold mapsEqual
  rw [if_neg (by simp [lenG]; exact hlen)]
  apply mapsEqualGo_true
  intro p hp
  refine ⟨p.2, ?_, ?_⟩
  · show lookupS l₂ p.1 = some p.2
    rw [← hpoint p.1]
    exact lookupS_of_mem_nodup (by simpa using hp) hndR
  · have hl2 : lookupS l₂ p.1 = some p.2 := by
      rw [← hpoint p.1]
      exact lookupS_of_mem_nodup (by simpa using hp) hndR
    obtain ⟨q, hq⟩ := hp₂ (p.1, p.2) (mem_of_lookupS hl2)
    have hq' : p.2 = Value.prim q := hq
    rw [hq']
    exact (valuesEqual_prim_iff q q).mpr rfl

/-- Witness for C1 on maps exercising a change, a deletion and an
addition at once. -/
theorem applyToMap_roundtrip_w :
    mapsEqual
      (ApplyToMap (some [("a", Value.prim (.pint 1)), ("c", Value.prim (.pint 3))])
        (DiffMaps (some [("a", Value.prim (.pint 1)), ("c", Value.prim (.pint 3))])
          (some [("a", Value.prim (.pint 2)), ("d", Value.prim (.pint 4))])).1)
      (some [("a", Value.prim (.pint 2)), ("d", Value.prim (.pint 4))]) = true :=
  applyToMap_roundtrip
    [("a", Value.prim (.pint 1)), ("c", Value.prim (.pint 3))]
    [("a", Value.prim (.pint 2)), ("d", Value.prim (.pint 4))]
    (by decide) (by decide)
    (by
      intro p hp
      rcases List.mem_cons.mp hp with h | h
      · exact ⟨.pint 1, by rw [h]⟩
      · rw [List.mem_singleton] at h
        exact ⟨.pint 3, by rw [h]⟩)
    (by
      intro p hp
      rcases List.mem_cons.mp hp with h | h
      · exact ⟨.pint 2, by rw [h]⟩
      · rw [List.mem_singleton] at h
        exact ⟨.pint 4, by rw [h]⟩)

end StructDiff
